import Mathlib

/-!
# Eng3D::ThreadPool (eng3d/src/thread_pool.hpp)

A shallow embedding of the worker pool.  Everything the pool shares between
threads (`running`, `jobs`, `busy`) is only touched while `job_mutex` is held, so
every critical section of the source is one atomic step of the model, and an
execution of the program is an interleaving of such steps.

* `ThreadPool.new`      the constructor `ThreadPool()`
* `ThreadPool.destroy`  the critical section of `~ThreadPool()`
* `ThreadPool.add_job`  `add_job`
* `ThreadPool.thread_loop`  one step of one worker inside `thread_loop`
* `ThreadPool.wait_finished`  `wait_finished` (returns, or stays blocked)
* `ThreadPool.for_each`  the static helper `for_each`

A thread blocked in `condition_variable::wait(lock, pred)` can only leave the
wait in a state where `pred` holds; since wake-ups may be spurious, the model
lets a blocked thread re-test `pred` at any moment.  `busy` is a `size_t`, taken
to be 64 bits wide: `busy++` is addition modulo 2^64 (with a 32-bit `size_t`
everything below holds with 2^32 in its place).
-/

namespace Eng3D

/-- Program point of one worker thread inside `thread_loop`. -/
inductive Worker (Job : Type) where
  /-- In `cv_task.wait` (line 93); the lock is released while blocked. -/
  | waiting : Worker Job
  /-- Inside `fn()` (line 107), after `latch.unlock()`. -/
  | running (fn : Job) : Worker Job
  /-- Left the loop through `break` (line 97); the thread function returned. -/
  | stopped : Worker Job
  deriving DecidableEq, Repr

/-- The data members of `Eng3D::ThreadPool`.  `threads` holds one entry per
spawned `std::thread`; `jobs` is the `std::queue`, front of the queue first. -/
structure ThreadPool (Job : Type) where
  running : Bool
  threads : List (Worker Job)
  jobs : List Job
  busy : Nat
  deriving DecidableEq, Repr

namespace ThreadPool

variable {Job : Type}

/-- The constructor `ThreadPool()` (lines 51-64).  `hardware_concurrency` is the
value returned by `std::thread::hardware_concurrency()`; each spawned thread
enters `thread_loop` and reaches its wait. -/
def new (hardware_concurrency : Nat) : ThreadPool Job :=
  let n_threads := hardware_concurrency
  { running := true
    threads := List.replicate n_threads Worker.waiting
    jobs := []
    busy := 0 }

/-- The critical section of `~ThreadPool()` (lines 69-72): `running = false`
and `cv_task.notify_all()`.  The joins that follow change no member. -/
def destroy (s : ThreadPool Job) : ThreadPool Job :=
  { s with running := false }

/-- The method `add_job` (lines 82-86): `jobs.push(job)` under the lock. -/
def add_job (s : ThreadPool Job) (job : Job) : ThreadPool Job :=
  { s with jobs := s.jobs ++ [job] }

/-- The predicate of `cv_task.wait` (line 94): `!running || !jobs.empty()`. -/
def task_ready (s : ThreadPool Job) : Bool :=
  !s.running || !s.jobs.isEmpty

/-- One atomic step of worker `i` in `thread_loop` (lines 90-112).

* From the wait: nothing happens while the wait predicate is false.  Once it
  holds, `if(!running) break;` stops the worker; otherwise the front job is
  popped, `busy++` (modulo 2^64), and the worker runs the job with the lock
  released.
* From a running job: `fn()` returns, the lock is taken again,
  `cv_finished.notify_one()` is called, and the loop goes back to the wait.
* A stopped worker (or an index that names no worker) does nothing. -/
def thread_loop (s : ThreadPool Job) (i : Nat) : ThreadPool Job :=
  match s.threads[i]? with
  | some Worker.waiting =>
    if s.task_ready then
      if !s.running then
        { s with threads := s.threads.set i Worker.stopped }
      else
        match s.jobs with
        | fn :: rest =>
          { s with
            jobs := rest
            busy := (s.busy + 1) % 2 ^ 64
            threads := s.threads.set i (Worker.running fn) }
        | [] => s
    else s
  | some (Worker.running _) =>
    { s with threads := s.threads.set i Worker.waiting }
  | _ => s

/-- The predicate of `cv_finished.wait` (line 118): `jobs.empty() && busy == 0`. -/
def finished (s : ThreadPool Job) : Bool :=
  s.jobs.isEmpty && s.busy == 0

/-- The method `wait_finished` (lines 115-120) called in state `s`: `some s` when
the caller gets through the wait (no member is changed), `none` while the caller
stays blocked in `cv_finished.wait`. -/
def wait_finished (s : ThreadPool Job) : Option (ThreadPool Job) :=
  if s.finished then some s else none

end ThreadPool

/-- One atomic step of some thread that uses the pool. -/
inductive Call (Job : Type) where
  | add_job (job : Job) : Call Job
  | thread_loop (i : Nat) : Call Job
  | wait_finished : Call Job
  | destroy : Call Job
  deriving DecidableEq, Repr

namespace ThreadPool

variable {Job : Type}

/-- The effect of one call on the members of the pool. -/
def step (s : ThreadPool Job) : Call Job → ThreadPool Job
  | Call.add_job job => s.add_job job
  | Call.thread_loop i => s.thread_loop i
  | Call.wait_finished => s
  | Call.destroy => s.destroy

/-- An interleaving of calls, run from state `s`. -/
def exec (s : ThreadPool Job) (calls : List (Call Job)) : ThreadPool Job :=
  calls.foldl step s

/-- States a pool with `N` workers can be in. -/
def Reachable (N : Nat) (s : ThreadPool Job) : Prop :=
  ∃ calls : List (Call Job), s = (new N).exec calls

/-- The job worker `i` took out of the queue in the step from `s` to `t`. -/
def taken (s t : ThreadPool Job) (i : Nat) : List Job :=
  match s.threads[i]?, t.threads[i]? with
  | some Worker.waiting, some (Worker.running fn) => [fn]
  | _, _ => []

/-- The calls of `k` rounds on worker 0: `job` is submitted, the worker dequeues
it, and it returns. -/
def rounds (job : Job) : Nat → List (Call Job)
  | 0 => []
  | k + 1 => Call.add_job job :: Call.thread_loop 0 :: Call.thread_loop 0 :: rounds job k

end ThreadPool

/-- A pool together with the record of what was submitted to it and what its
workers dequeued, both in the order in which it happened. -/
structure History (Job : Type) where
  pool : ThreadPool Job
  submitted : List Job
  dequeued : List Job
  deriving DecidableEq, Repr

namespace History

variable {Job : Type}

/-- The record of a freshly constructed pool. -/
def new (hardware_concurrency : Nat) : History Job :=
  { pool := ThreadPool.new hardware_concurrency, submitted := [], dequeued := [] }

/-- One call on the pool, recorded. -/
def step (h : History Job) (c : Call Job) : History Job :=
  match c with
  | Call.add_job job =>
    { pool := h.pool.step c, submitted := h.submitted ++ [job], dequeued := h.dequeued }
  | Call.thread_loop i =>
    { pool := h.pool.step c
      submitted := h.submitted
      dequeued := h.dequeued ++ ThreadPool.taken h.pool (h.pool.step c) i }
  | _ => { h with pool := h.pool.step c }

/-- An interleaving of calls, recorded. -/
def exec (h : History Job) (calls : List (Call Job)) : History Job :=
  calls.foldl step h

end History

/-- What a call of `for_each` can run into instead of returning. -/
inductive Fault where
  /-- An integer division whose divisor is zero (undefined behaviour). -/
  | division_by_zero : Fault
  deriving DecidableEq, Repr

namespace ThreadPool

/-- The loop of `for_each` (lines 129-131): `func(*first)` and `first++` until
`first == last`.  The range is given by its elements; `func` acts on the state
`st` of whatever it touches. -/
def for_each_loop {α σ : Type} (func : α → σ → σ) : List α → σ → σ
  | [], st => st
  | x :: rest, st => for_each_loop func rest (func x st)

/-- The static helper `for_each` (lines 122-132).  `hardware_concurrency` is the
value returned by `std::thread::hardware_concurrency()`. -/
def for_each {α σ : Type} (hardware_concurrency : Nat) (range : List α)
    (func : α → σ → σ) (st : σ) : Except Fault σ :=
  let n_threads := hardware_concurrency
  if range.length = 0 then
    Except.ok st
  else if n_threads = 0 then
    Except.error Fault.division_by_zero
  else
    let _iterators_per_thread := range.length / n_threads
    Except.ok (for_each_loop func range st)

end ThreadPool

/-! ## Invariants -/

namespace ThreadPool

variable {Job : Type}

end ThreadPool

namespace History

variable {Job : Type}

/-- What was dequeued, followed by what is still queued, is what was submitted. -/
def FifoInv (h : History Job) : Prop :=
  h.dequeued ++ h.pool.jobs = h.submitted

/-- The jobs handed to `add_job` by a list of calls, in call order. -/
def add_job_args : List (Call Job) → List Job
  | [] => []
  | Call.add_job job :: calls => job :: add_job_args calls
  | _ :: calls => add_job_args calls

end History

/-! ## UI::Input (eng3d/src/ui/input.cpp)

The text-input widget.  A `std::string` is the list of its bytes and a
`std::u32string` the list of its code points, both as natural numbers.  The
handlers convert between the two with
`std::wstring_convert<std::codecvt_utf8<char32_t>, char32_t>`, which belongs to
the C++ standard library; `from_bytes` and `to_bytes` below follow the
implementation of libstdc++.  On well-formed UTF-8 they are the UTF-8 decoding
and encoding; on other input `from_bytes` throws `std::range_error` for an
invalid sequence but returns the decoded prefix when the input ends in the
middle of a sequence, and both conversions let surrogate code points through.
The members `curpos` and `timer` are declared in `eng3d/ui/input.hpp`, which is
not among the sources; they are taken to be unsigned.
-/

namespace UI

/-- The bytes `10xxxxxx` that continue a multi-byte sequence. -/
def is_continuation (b : Nat) : Bool := 0x80 ≤ b && b < 0xC0

/-- Unicode scalar values: code points up to U+10FFFF that are not surrogates. -/
def is_scalar (c : Nat) : Bool := c < 0xD800 || (0xE000 ≤ c && c < 0x110000)

/-- The UTF-8 bytes of one code point (`write_utf8_code_point` of libstdc++). -/
def encode (c : Nat) : List Nat :=
  if c < 0x80 then [c]
  else if c < 0x800 then [0xC0 + c / 0x40, 0x80 + c % 0x40]
  else if c < 0x10000 then [0xE0 + c / 0x1000, 0x80 + c / 0x40 % 0x40, 0x80 + c % 0x40]
  else [0xF0 + c / 0x40000, 0x80 + c / 0x1000 % 0x40, 0x80 + c / 0x40 % 0x40, 0x80 + c % 0x40]

/-- What `read_utf8_code_point` returns: one of its two error values, or a code
point together with the bytes after it. -/
inductive Read where
  | incomplete_mb_character : Read
  | invalid_mb_sequence : Read
  | code_point (c : Nat) (rest : List Nat) : Read
  deriving DecidableEq, Repr

/-- The function `read_utf8_code_point` of libstdc++ (`src/c++11/codecvt.cc`), on
which `codecvt_utf8<char32_t>::do_in` rests.  A lead byte that announces more
bytes than are left gives `incomplete_mb_character`, before any of the bytes
that are left is looked at. -/
def read_utf8_code_point : List Nat → Read
  | [] => Read.incomplete_mb_character
  | c1 :: rest =>
    if c1 < 0x80 then Read.code_point c1 rest
    else if c1 < 0xC2 then Read.invalid_mb_sequence
    else if c1 < 0xE0 then
      match rest with
      | c2 :: rest2 =>
        if !is_continuation c2 then Read.invalid_mb_sequence
        else Read.code_point (c1 * 0x40 + c2 - 0x3080) rest2
      | _ => Read.incomplete_mb_character
    else if c1 < 0xF0 then
      match rest with
      | c2 :: c3 :: rest3 =>
        if !is_continuation c2 then Read.invalid_mb_sequence
        else if c1 == 0xE0 && c2 < 0xA0 then Read.invalid_mb_sequence
        else if !is_continuation c3 then Read.invalid_mb_sequence
        else Read.code_point (c1 * 0x1000 + c2 * 0x40 + c3 - 0xE2080) rest3
      | _ => Read.incomplete_mb_character
    else if c1 < 0xF5 then
      match rest with
      | c2 :: c3 :: c4 :: rest4 =>
        if !is_continuation c2 then Read.invalid_mb_sequence
        else if c1 == 0xF0 && c2 < 0x90 then Read.invalid_mb_sequence
        else if c1 == 0xF4 && c2 ≥ 0x90 then Read.invalid_mb_sequence
        else if !is_continuation c3 then Read.invalid_mb_sequence
        else if !is_continuation c4 then Read.invalid_mb_sequence
        else Read.code_point (c1 * 0x40000 + c2 * 0x1000 + c3 * 0x40 + c4 - 0x3C82080) rest4
      | _ => Read.incomplete_mb_character
    else Read.invalid_mb_sequence

/-- The loop `ucs4_in` of libstdc++ as `wstring_convert::from_bytes` uses it
(maximum code point 0x10FFFF, no byte-order mark handling).  An invalid sequence is
a conversion error, which `from_bytes` turns into `std::range_error` (`none`).
An incomplete sequence at the end stops the loop with the result `partial`, on
which `from_bytes` returns what was decoded so far.  Every step consumes at
least one byte, so as much fuel as there are bytes is enough. -/
def ucs4_in : Nat → List Nat → Option (List Nat)
  | _, [] => some []
  | 0, _ :: _ => none
  | fuel + 1, c1 :: rest =>
    match read_utf8_code_point (c1 :: rest) with
    | Read.incomplete_mb_character => some []
    | Read.invalid_mb_sequence => none
    | Read.code_point c remaining =>
      if c > 0x10FFFF then none
      else (ucs4_in fuel remaining).map (fun tail => c :: tail)

/-- The conversion `from_bytes` of
`std::wstring_convert<std::codecvt_utf8<char32_t>, char32_t>` as libstdc++
implements it: UTF-8 to UTF-32, `none` for `std::range_error`. -/
def from_bytes (bytes : List Nat) : Option (List Nat) :=
  ucs4_in bytes.length bytes

/-- The conversion `to_bytes` of the same converter (`ucs4_out` of libstdc++):
UTF-32 to UTF-8, `none` for `std::range_error`, which is thrown for a code point
above 0x10FFFF; surrogate code points are encoded like any other. -/
def to_bytes : List Nat → Option (List Nat)
  | [] => some []
  | c :: rest =>
    if c > 0x10FFFF then none
    else (to_bytes rest).map (fun tail => encode c ++ tail)

/-- The UTF-8 encoding of a text of Unicode scalar values; `none` when a code
point is not a scalar value. -/
def utf8_encode : List Nat → Option (List Nat)
  | [] => some []
  | c :: rest =>
    if is_scalar c then (utf8_encode rest).map (fun tail => encode c ++ tail) else none

/-- Well-formed UTF-8, one sequence: the first code point of the bytes and the
bytes after it, `none` when the bytes do not start with a well-formed sequence
(truncated, overlong, surrogate, above U+10FFFF, stray continuation byte). -/
def utf8_read : List Nat → Option (Nat × List Nat)
  | [] => none
  | b0 :: rest =>
    if b0 < 0x80 then some (b0, rest)
    else if b0 < 0xC2 then none
    else if b0 < 0xE0 then
      match rest with
      | b1 :: rest1 =>
        if is_continuation b1 then some ((b0 - 0xC0) * 0x40 + (b1 - 0x80), rest1) else none
      | _ => none
    else if b0 < 0xF0 then
      match rest with
      | b1 :: b2 :: rest2 =>
        if is_continuation b1 && is_continuation b2
            && 0x800 ≤ (b0 - 0xE0) * 0x1000 + (b1 - 0x80) * 0x40 + (b2 - 0x80)
            && is_scalar ((b0 - 0xE0) * 0x1000 + (b1 - 0x80) * 0x40 + (b2 - 0x80)) then
          some ((b0 - 0xE0) * 0x1000 + (b1 - 0x80) * 0x40 + (b2 - 0x80), rest2)
        else none
      | _ => none
    else if b0 < 0xF5 then
      match rest with
      | b1 :: b2 :: b3 :: rest3 =>
        if is_continuation b1 && is_continuation b2 && is_continuation b3
            && 0x10000 ≤ (b0 - 0xF0) * 0x40000 + (b1 - 0x80) * 0x1000 + (b2 - 0x80) * 0x40
                + (b3 - 0x80)
            && (b0 - 0xF0) * 0x40000 + (b1 - 0x80) * 0x1000 + (b2 - 0x80) * 0x40 + (b3 - 0x80)
                < 0x110000 then
          some ((b0 - 0xF0) * 0x40000 + (b1 - 0x80) * 0x1000 + (b2 - 0x80) * 0x40 + (b3 - 0x80),
            rest3)
        else none
      | _ => none
    else none

/-- Well-formed UTF-8, sequence after sequence; every step consumes at least one
byte, so as much fuel as there are bytes is enough. -/
def utf8_decode_loop : Nat → List Nat → Option (List Nat)
  | _, [] => some []
  | 0, _ :: _ => none
  | fuel + 1, b0 :: rest =>
    match utf8_read (b0 :: rest) with
    | some (c, remaining) => (utf8_decode_loop fuel remaining).map (fun tail => c :: tail)
    | none => none

/-- The code points of a well-formed UTF-8 string (the Unicode definition);
`none` when the string is not well-formed. -/
def utf8_decode (bytes : List Nat) : Option (List Nat) :=
  utf8_decode_loop bytes.length bytes

/-- The exceptions the handlers can let escape. -/
inductive Exception where
  | range_error : Exception
  | out_of_range : Exception
  deriving DecidableEq, Repr

/-- The call `std::u32string::insert(pos, str)`: `none` is `std::out_of_range`,
thrown when `pos > size()`. -/
def u32_insert (text : List Nat) (pos : Nat) (str : List Nat) : Option (List Nat) :=
  if pos ≤ text.length then some (text.take pos ++ str ++ text.drop pos) else none

/-- The call `std::u32string::erase(pos, count)`: `none` is `std::out_of_range`,
thrown when `pos > size()`. -/
def u32_erase (text : List Nat) (pos count : Nat) : Option (List Nat) :=
  if pos ≤ text.length then some (text.take pos ++ text.drop (pos + count)) else none

/-- The members of `UI::Input` the handlers use.  `text_calls` holds the argument
of every call of `Widget::text` so far, oldest first; the widget displays the
last one. -/
structure Input where
  buffer : List Nat
  curpos : Nat
  timer : Nat
  is_selected : Bool
  text_calls : List (List Nat)
  deriving DecidableEq, Repr

/-- The outcome of running a handler: the members afterwards, and the exception
that escaped, if any. -/
structure Run where
  widget : Input
  thrown : Option Exception
  deriving DecidableEq, Repr

namespace Input

/-- Modelled from the spec: `Widget::text(const std::string&)` is declared in
`eng3d/ui/widget.hpp`, which is not among the sources; a call is recorded with
its argument, the text the widget displays from then on. -/
def text (w : Input) (str : List Nat) : Input :=
  { w with text_calls := w.text_calls ++ [str] }

/-- Lines 56-57 of the `on_textinput` handler: `w.buffer = to_bytes(unicode_text)`
and `w.text(w.buffer.empty() ? " " : w.buffer)`. -/
def store_text (w : Input) (unicode_text : List Nat) : Run :=
  match to_bytes unicode_text with
  | none => { widget := w, thrown := some Exception.range_error }
  | some bytes =>
    { widget := ({ w with buffer := bytes }).text (if bytes.isEmpty then [0x20] else bytes)
      thrown := none }

/-- The `on_textinput` handler installed by the constructor (lines 43-58).
`input` is `none` for a null pointer (backspace) and otherwise the bytes of the
C string. -/
def on_textinput (w : Input) (input : Option (List Nat)) : Run :=
  match from_bytes w.buffer with
  | none => { widget := w, thrown := some Exception.range_error }
  | some unicode_text =>
    match input with
    | some bytes =>
      match from_bytes bytes with
      | none => { widget := w, thrown := some Exception.range_error }
      | some unicode_input =>
        match u32_insert unicode_text w.curpos unicode_input with
        | none => { widget := w, thrown := some Exception.out_of_range }
        | some inserted =>
          store_text { w with curpos := w.curpos + unicode_input.length } inserted
    | none =>
      if !unicode_text.isEmpty && w.curpos != 0 then
        match u32_erase unicode_text (w.curpos - 1) 1 with
        | none => { widget := w, thrown := some Exception.out_of_range }
        | some erased => store_text { w with curpos := w.curpos - 1 } erased
      else
        store_text w unicode_text

/-- The method `set_buffer` (lines 64-71). -/
def set_buffer (w : Input) (_buffer : List Nat) : Run :=
  let w1 := ({ w with buffer := _buffer }).text _buffer
  match from_bytes w1.buffer with
  | none => { widget := w1, thrown := some Exception.range_error }
  | some unicode_text => { widget := { w1 with curpos := unicode_text.length }, thrown := none }

/-- The handler `on_update_default` (lines 87-101).  The cursor string `"_"` is
the single byte 0x5F. -/
def on_update_default (w : Input) : Run :=
  match from_bytes w.buffer with
  | none => { widget := w, thrown := some Exception.range_error }
  | some unicode_text =>
    if w.curpos = unicode_text.length then
      let w1 := { w with timer := (w.timer + 1) % 30 }
      let cursor : List Nat := if w1.timer ≥ 10 then [0x5F] else []
      if w1.is_selected && w1.timer % 30 == 0 then
        if !w1.buffer.isEmpty then
          { widget := w1.text (w1.buffer ++ cursor), thrown := none }
        else if !cursor.isEmpty then
          { widget := w1.text cursor, thrown := none }
        else
          { widget := w1, thrown := none }
      else
        { widget := w1, thrown := none }
    else
      { widget := w, thrown := none }

/-- The update handler as the claim describes it: the timer advances when the
cursor is at the end of the text, and the displayed text is set to the buffer,
without any cursor, when the widget is selected, the new timer value is 0 and
the buffer is not empty. -/
def on_update_without_cursor (w : Input) : Run :=
  match from_bytes w.buffer with
  | none => { widget := w, thrown := some Exception.range_error }
  | some unicode_text =>
    if w.curpos = unicode_text.length then
      let w1 := { w with timer := (w.timer + 1) % 30 }
      if w1.is_selected && w1.timer == 0 && !w1.buffer.isEmpty then
        { widget := w1.text w1.buffer, thrown := none }
      else
        { widget := w1, thrown := none }
    else
      { widget := w, thrown := none }

/-- The cursor position is within the code points of the buffer. -/
def curpos_in_bounds (w : Input) : Prop :=
  ∃ unicode_text, from_bytes w.buffer = some unicode_text ∧ w.curpos ≤ unicode_text.length

end Input

end UI

/-! ## Reasoning principles -/

namespace ThreadPool

variable {Job : Type}

theorem exec_nil (s : ThreadPool Job) : s.exec [] = s := rfl

theorem exec_cons (s : ThreadPool Job) (c : Call Job) (calls : List (Call Job)) :
    s.exec (c :: calls) = (s.step c).exec calls := rfl

theorem exec_append (s : ThreadPool Job) (xs ys : List (Call Job)) :
    s.exec (xs ++ ys) = (s.exec xs).exec ys := by
  simp [exec, List.foldl_append]

/-- A property kept by every call is kept by every interleaving. -/
theorem exec_preserves (P : ThreadPool Job → Prop)
    (hstep : ∀ s c, P s → P (s.step c)) :
    ∀ (calls : List (Call Job)) (s : ThreadPool Job), P s → P (s.exec calls) := by
  intro calls
  induction calls with
  | nil => intro s hs; exact hs
  | cons c rest ih => intro s hs; exact ih (s.step c) (hstep s c hs)

/-- Induction over the reachable states of a pool with `N` workers. -/
theorem Reachable.induct {N : Nat} (P : ThreadPool Job → Prop)
    (hnew : P (new N)) (hstep : ∀ s c, P s → P (s.step c))
    {s : ThreadPool Job} (hs : Reachable N s) : P s := by
  obtain ⟨calls, rfl⟩ := hs
  exact exec_preserves P hstep calls _ hnew

/-- The steps a worker can take, one case per branch of `thread_loop`. -/
theorem thread_loop_cases (s : ThreadPool Job) (i : Nat) :
    s.thread_loop i = s
    ∨ (s.threads[i]? = some Worker.waiting ∧ s.running = false
        ∧ s.thread_loop i = { s with threads := s.threads.set i Worker.stopped })
    ∨ (∃ fn rest, s.threads[i]? = some Worker.waiting ∧ s.running = true
        ∧ s.jobs = fn :: rest
        ∧ s.thread_loop i =
          { s with jobs := rest, busy := (s.busy + 1) % 2 ^ 64,
                   threads := s.threads.set i (Worker.running fn) })
    ∨ (∃ fn, s.threads[i]? = some (Worker.running fn)
        ∧ s.thread_loop i = { s with threads := s.threads.set i Worker.waiting }) := by
  unfold thread_loop
  cases hw : s.threads[i]? with
  | none => simp
  | some w =>
    cases w with
    | waiting =>
      cases hr : s.running with
      | false => simp [task_ready, hr]
      | true =>
        cases hj : s.jobs with
        | nil => simp [task_ready, hr, hj]
        | cons fn rest => simp [task_ready, hr, hj]
    | running fn => simp
    | stopped => simp

theorem finished_iff (s : ThreadPool Job) :
    s.finished = true ↔ s.jobs = [] ∧ s.busy = 0 := by
  simp [finished, List.isEmpty_iff]

theorem getElem?_set_of_some {Job : Type} {l : List (Worker Job)} {i : Nat}
    {a b : Worker Job} (h : l[i]? = some a) : (l.set i b)[i]? = some b := by
  rw [List.getElem?_set_self', h]
  rfl

theorem taken_self (s : ThreadPool Job) (i : Nat) : taken s s i = [] := by
  unfold taken
  split
  · next h1 h2 => rw [h1] at h2; cases h2
  · rfl

end ThreadPool

namespace History

variable {Job : Type}

theorem record_cons (h : History Job) (c : Call Job) (calls : List (Call Job)) :
    h.exec (c :: calls) = (h.step c).exec calls := rfl

theorem record_preserves (P : History Job → Prop)
    (hstep : ∀ h c, P h → P (h.step c)) :
    ∀ (calls : List (Call Job)) (h : History Job), P h → P (h.exec calls) := by
  intro calls
  induction calls with
  | nil => intro h hh; exact hh
  | cons c rest ih => intro h hh; exact ih (h.step c) (hstep h c hh)

theorem record_append (h : History Job) (xs ys : List (Call Job)) :
    h.exec (xs ++ ys) = (h.exec xs).exec ys := by
  simp [exec, List.foldl_append]

theorem step_pool (h : History Job) (c : Call Job) : (h.step c).pool = h.pool.step c := by
  cases c <;> rfl

/-- The recorded run of a pool goes through the same pool states as the plain run. -/
theorem exec_pool (calls : List (Call Job)) :
    ∀ h : History Job, (h.exec calls).pool = h.pool.exec calls := by
  induction calls with
  | nil => intro h; rfl
  | cons c rest ih =>
    intro h
    rw [record_cons, ih, step_pool, ThreadPool.exec_cons]

/-- The submission record grows by exactly the arguments of the `add_job` calls. -/
theorem exec_submitted (calls : List (Call Job)) :
    ∀ h : History Job, (h.exec calls).submitted = h.submitted ++ add_job_args calls := by
  induction calls with
  | nil => intro h; simp [exec, add_job_args]
  | cons c rest ih =>
    intro h
    rw [record_cons, ih]
    cases c <;> simp [step, add_job_args]

/-- What a worker step appends to the dequeue record and how it changes the queue. -/
theorem thread_loop_taken (s : ThreadPool Job) (i : Nat) :
    ThreadPool.taken s (s.thread_loop i) i ++ (s.thread_loop i).jobs = s.jobs := by
  rcases ThreadPool.thread_loop_cases s i with
    h0 | ⟨hw, _, h1⟩ | ⟨fn, rest, hw, _, hj, h2⟩ | ⟨fn, hw, h3⟩
  · rw [h0, ThreadPool.taken_self]; rfl
  · rw [h1]
    simp [ThreadPool.taken, hw, ThreadPool.getElem?_set_of_some hw]
  · rw [h2]
    simp [ThreadPool.taken, hw, ThreadPool.getElem?_set_of_some hw, hj]
  · rw [h3]
    simp [ThreadPool.taken, hw]

theorem fifoInv_new (N : Nat) : FifoInv (History.new N : History Job) := by
  simp [FifoInv, History.new, ThreadPool.new]

theorem fifoInv_step (h : History Job) (c : Call Job) (hh : FifoInv h) :
    FifoInv (h.step c) := by
  unfold FifoInv at *
  cases c with
  | add_job job =>
    simp only [step, ThreadPool.step, ThreadPool.add_job]
    rw [← List.append_assoc, hh]
  | thread_loop i =>
    simp only [step, ThreadPool.step]
    rw [List.append_assoc, thread_loop_taken, hh]
  | wait_finished => exact hh
  | destroy => exact hh

end History

namespace ThreadPool

variable {Job : Type}

/-- After teardown a worker step takes nothing out of the queue. -/
theorem thread_loop_not_running (s : ThreadPool Job) (i : Nat) (hr : s.running = false) :
    (s.thread_loop i).running = false ∧ (s.thread_loop i).jobs = s.jobs
    ∧ (s.thread_loop i).busy = s.busy ∧ taken s (s.thread_loop i) i = [] := by
  rcases thread_loop_cases s i with
    h0 | ⟨hw, _, h1⟩ | ⟨fn, rest, _, hrun, _, _⟩ | ⟨fn, hw, h3⟩
  · rw [h0]; exact ⟨hr, rfl, rfl, taken_self s i⟩
  · rw [h1]
    refine ⟨hr, rfl, rfl, ?_⟩
    simp [taken, hw, getElem?_set_of_some hw]
  · rw [hr] at hrun; cases hrun
  · rw [h3]
    refine ⟨hr, rfl, rfl, ?_⟩
    simp [taken, hw]

end ThreadPool

namespace History

variable {Job : Type}

/-- After teardown no call adds to the dequeue record or shortens the queue. -/
theorem step_not_running (h0 h : History Job) (c : Call Job)
    (hh : h.pool.running = false ∧ h.dequeued = h0.dequeued
      ∧ h0.pool.jobs <+: h.pool.jobs) :
    (h.step c).pool.running = false ∧ (h.step c).dequeued = h0.dequeued
      ∧ h0.pool.jobs <+: (h.step c).pool.jobs := by
  obtain ⟨hr, hd, hj⟩ := hh
  cases c with
  | add_job job =>
    refine ⟨hr, hd, ?_⟩
    show h0.pool.jobs <+: h.pool.jobs ++ [job]
    exact hj.trans (List.prefix_append _ _)
  | wait_finished => exact ⟨hr, hd, hj⟩
  | destroy => exact ⟨rfl, hd, hj⟩
  | thread_loop i =>
    obtain ⟨h1, h2, _, h4⟩ := ThreadPool.thread_loop_not_running h.pool i hr
    refine ⟨h1, ?_, ?_⟩
    · show h.dequeued ++ ThreadPool.taken h.pool (h.pool.thread_loop i) i = h0.dequeued
      rw [h4, List.append_nil, hd]
    · show h0.pool.jobs <+: (h.pool.thread_loop i).jobs
      rw [h2]; exact hj

end History

namespace ThreadPool

/-- The loop of `for_each` threads the state through `func` from left to right. -/
theorem for_each_loop_eq_foldl {α σ : Type} (func : α → σ → σ) :
    ∀ (range : List α) (st : σ),
      for_each_loop func range st = range.foldl (fun acc x => func x acc) st := by
  intro range
  induction range with
  | nil => intro st; rfl
  | cons x rest ih => intro st; simp [for_each_loop, ih]

/-- A function that records its argument turns the loop into a copy of the range. -/
theorem for_each_loop_record {α : Type} :
    ∀ (range seen : List α),
      for_each_loop (fun x visited => visited ++ [x]) range seen = seen ++ range := by
  intro range
  induction range with
  | nil => intro seen; simp [for_each_loop]
  | cons x rest ih => intro seen; simp [for_each_loop, ih]

end ThreadPool

namespace History

variable {Job : Type}

theorem add_job_args_append (xs ys : List (Call Job)) :
    add_job_args (xs ++ ys) = add_job_args xs ++ add_job_args ys := by
  induction xs with
  | nil => rfl
  | cons c rest ih => cases c <;> simp [add_job_args, ih]

/-- A worker step either takes no job and leaves `busy`, or takes one job and
does `busy++`. -/
theorem thread_loop_busy (s : ThreadPool Job) (i : Nat) :
    (ThreadPool.taken s (s.thread_loop i) i = [] ∧ (s.thread_loop i).busy = s.busy)
    ∨ (∃ fn, ThreadPool.taken s (s.thread_loop i) i = [fn]
        ∧ (s.thread_loop i).busy = (s.busy + 1) % 2 ^ 64) := by
  rcases ThreadPool.thread_loop_cases s i with
    h0 | ⟨hw, _, h1⟩ | ⟨fn, rest, hw, _, hj, h2⟩ | ⟨fn, hw, h3⟩
  · rw [h0, ThreadPool.taken_self]; exact Or.inl ⟨rfl, rfl⟩
  · rw [h1]
    refine Or.inl ⟨?_, rfl⟩
    simp [ThreadPool.taken, hw, ThreadPool.getElem?_set_of_some hw]
  · rw [h2]
    refine Or.inr ⟨fn, ?_, rfl⟩
    simp [ThreadPool.taken, hw, ThreadPool.getElem?_set_of_some hw]
  · rw [h3]
    refine Or.inl ⟨?_, rfl⟩
    simp [ThreadPool.taken, hw]

/-- The counter `busy` is the length of the dequeue record modulo 2^64, step by
step. -/
theorem busy_step (h : History Job) (c : Call Job)
    (hh : h.pool.busy = h.dequeued.length % 2 ^ 64) :
    (h.step c).pool.busy = (h.step c).dequeued.length % 2 ^ 64 := by
  cases c with
  | add_job job => exact hh
  | wait_finished => exact hh
  | destroy => exact hh
  | thread_loop i =>
    show (h.pool.thread_loop i).busy
      = (h.dequeued ++ ThreadPool.taken h.pool (h.pool.thread_loop i) i).length % 2 ^ 64
    rcases thread_loop_busy h.pool i with ⟨ht, hb⟩ | ⟨fn, ht, hb⟩
    · rw [ht, hb, List.append_nil]; exact hh
    · rw [ht, hb, hh, List.length_append, List.length_singleton]
      omega

/-- The record of `k` rounds on a pool with one idle worker and an empty queue. -/
theorem record_rounds (job : Job) (k : Nat) :
    ∀ (b : Nat) (sub deq : List Job), b < 2 ^ 64 →
      (History.mk (ThreadPool.mk true [Worker.waiting] [] b) sub deq).exec
          (ThreadPool.rounds job k)
        = History.mk (ThreadPool.mk true [Worker.waiting] [] ((b + k) % 2 ^ 64))
            (sub ++ List.replicate k job) (deq ++ List.replicate k job) := by
  induction k with
  | zero =>
    intro b sub deq hb
    have hmod : (b + 0) % 2 ^ 64 = b := by omega
    rw [hmod]
    simp [ThreadPool.rounds, exec]
  | succ k ih =>
    intro b sub deq hb
    have hround : (((History.mk (ThreadPool.mk true [Worker.waiting] [] b) sub deq).step
        (Call.add_job job)).step (Call.thread_loop 0)).step (Call.thread_loop 0)
        = History.mk (ThreadPool.mk true [Worker.waiting] [] ((b + 1) % 2 ^ 64))
            (sub ++ [job]) (deq ++ [job]) := by
      simp [step, ThreadPool.step, ThreadPool.add_job, ThreadPool.thread_loop,
        ThreadPool.task_ready, ThreadPool.taken]
    have hlt : (b + 1) % 2 ^ 64 < 2 ^ 64 := Nat.mod_lt _ (by decide)
    have harith : ((b + 1) % 2 ^ 64 + k) % 2 ^ 64 = (b + (k + 1)) % 2 ^ 64 := by omega
    show ((((History.mk (ThreadPool.mk true [Worker.waiting] [] b) sub deq).step
        (Call.add_job job)).step (Call.thread_loop 0)).step (Call.thread_loop 0)).exec
          (ThreadPool.rounds job k) = _
    rw [hround, ih _ _ _ hlt, harith]
    simp [List.replicate_succ]

/-- A pool without workers: no call changes the (empty) worker list, the dequeue
record or `busy`. -/
theorem no_worker_step (h : History Job) (c : Call Job)
    (hh : h.pool.threads = [] ∧ h.dequeued = [] ∧ h.pool.busy = 0) :
    (h.step c).pool.threads = [] ∧ (h.step c).dequeued = [] ∧ (h.step c).pool.busy = 0 := by
  obtain ⟨ht, hd, hb⟩ := hh
  cases c with
  | add_job job => exact ⟨ht, hd, hb⟩
  | wait_finished => exact ⟨ht, hd, hb⟩
  | destroy => exact ⟨ht, hd, hb⟩
  | thread_loop i =>
    have hstep : h.pool.thread_loop i = h.pool := by
      simp [ThreadPool.thread_loop, ht]
    refine ⟨?_, ?_, ?_⟩
    · show (h.pool.thread_loop i).threads = []
      rw [hstep]; exact ht
    · show h.dequeued ++ ThreadPool.taken h.pool (h.pool.thread_loop i) i = []
      rw [hstep, ThreadPool.taken_self, hd]; rfl
    · show (h.pool.thread_loop i).busy = 0
      rw [hstep]; exact hb

end History

namespace ThreadPool

variable {Job : Type}

/-- No call writes `busy` except by `busy++`. -/
theorem busy_step_cases (s : ThreadPool Job) (c : Call Job) :
    (s.step c).busy = s.busy ∨ (s.step c).busy = (s.busy + 1) % 2 ^ 64 := by
  cases c with
  | add_job job => exact Or.inl rfl
  | wait_finished => exact Or.inl rfl
  | destroy => exact Or.inl rfl
  | thread_loop i =>
    show (s.thread_loop i).busy = s.busy ∨ (s.thread_loop i).busy = (s.busy + 1) % 2 ^ 64
    rcases History.thread_loop_busy s i with ⟨_, h⟩ | ⟨_, _, h⟩
    · exact Or.inl h
    · exact Or.inr h

/-- The return of a job changes neither the queue nor `busy`, hence not the
condition of `wait_finished` either. -/
theorem thread_loop_return (s : ThreadPool Job) (i : Nat) (fn : Job)
    (hw : s.threads[i]? = some (Worker.running fn)) :
    s.thread_loop i = { s with threads := s.threads.set i Worker.waiting }
    ∧ (s.thread_loop i).finished = s.finished := by
  have h : s.thread_loop i = { s with threads := s.threads.set i Worker.waiting } := by
    simp [thread_loop, hw]
  rw [h]
  exact ⟨rfl, rfl⟩

/-- What `k` rounds do to a pool with one idle worker and an empty queue. -/
theorem exec_rounds (job : Job) (k b : Nat) (hb : b < 2 ^ 64) :
    (ThreadPool.mk true [Worker.waiting] [] b).exec (rounds job k)
      = ThreadPool.mk true [Worker.waiting] [] ((b + k) % 2 ^ 64) := by
  have h := History.record_rounds job k b [] [] hb
  have hp := congrArg History.pool h
  rw [History.exec_pool] at hp
  exact hp

end ThreadPool

namespace UI

/-- Reading a code point succeeds exactly on an encoded scalar followed by the rest. -/
theorem utf8_read_spec (bytes : List Nat) (c : Nat) (rest : List Nat)
    (h : utf8_read bytes = some (c, rest)) :
    is_scalar c = true ∧ bytes = encode c ++ rest := by
  unfold utf8_read at h
  split at h
  · cases h
  · next b0 tl =>
    split at h
    · next h1 =>
      simp only [Option.some.injEq, Prod.mk.injEq] at h
      obtain ⟨rfl, rfl⟩ := h
      refine ⟨?_, ?_⟩
      · simp [is_scalar]; omega
      · simp [encode, h1]
    · split at h
      · cases h
      · split at h
        · next h1 h2 h3 =>
          split at h
          · next b1 rest1 =>
            split at h
            · next hc1 =>
              simp only [Option.some.injEq, Prod.mk.injEq] at h
              obtain ⟨rfl, rfl⟩ := h
              simp only [is_continuation, Bool.and_eq_true, decide_eq_true_eq] at hc1
              refine ⟨?_, ?_⟩
              · simp [is_scalar]; omega
              · have e1 : ¬ ((b0 - 0xC0) * 0x40 + (b1 - 0x80) < 0x80) := by omega
                have e2 : (b0 - 0xC0) * 0x40 + (b1 - 0x80) < 0x800 := by omega
                have e3 : 0xC0 + ((b0 - 0xC0) * 0x40 + (b1 - 0x80)) / 0x40 = b0 := by omega
                have e4 : 0x80 + ((b0 - 0xC0) * 0x40 + (b1 - 0x80)) % 0x40 = b1 := by omega
                simp only [encode, e1, e2, e3, e4, if_false, if_true, List.cons_append,
                  List.nil_append]
            · cases h
          · cases h
        · split at h
          · next h1 h2 h3 h4 =>
            split at h
            · next b1 b2 rest2 =>
              split at h
              · next hc =>
                simp only [Option.some.injEq, Prod.mk.injEq] at h
                obtain ⟨rfl, rfl⟩ := h
                simp only [is_continuation, Bool.and_eq_true, decide_eq_true_eq] at hc
                obtain ⟨⟨⟨hc1, hc2⟩, hmin⟩, hsc⟩ := hc
                refine ⟨hsc, ?_⟩
                have e1 : ¬ ((b0 - 0xE0) * 0x1000 + (b1 - 0x80) * 0x40 + (b2 - 0x80) < 0x80) := by
                  omega
                have e2 : ¬ ((b0 - 0xE0) * 0x1000 + (b1 - 0x80) * 0x40 + (b2 - 0x80) < 0x800) := by
                  omega
                have e3 : (b0 - 0xE0) * 0x1000 + (b1 - 0x80) * 0x40 + (b2 - 0x80) < 0x10000 := by
                  omega
                have e4 : 0xE0 + ((b0 - 0xE0) * 0x1000 + (b1 - 0x80) * 0x40 + (b2 - 0x80)) / 0x1000
                    = b0 := by omega
                have e5 : 0x80 + ((b0 - 0xE0) * 0x1000 + (b1 - 0x80) * 0x40 + (b2 - 0x80)) / 0x40
                    % 0x40 = b1 := by omega
                have e6 : 0x80 + ((b0 - 0xE0) * 0x1000 + (b1 - 0x80) * 0x40 + (b2 - 0x80)) % 0x40
                    = b2 := by omega
                simp only [encode, e1, e2, e3, e4, e5, e6, if_false, if_true, List.cons_append,
                  List.nil_append]
              · cases h
            · cases h
          · split at h
            · next h1 h2 h3 h4 h5 =>
              split at h
              · next b1 b2 b3 rest3 =>
                split at h
                · next hc =>
                  simp only [Option.some.injEq, Prod.mk.injEq] at h
                  obtain ⟨rfl, rfl⟩ := h
                  simp only [is_continuation, Bool.and_eq_true, decide_eq_true_eq] at hc
                  obtain ⟨⟨⟨⟨hc1, hc2⟩, hc3⟩, hmin⟩, hmax⟩ := hc
                  refine ⟨?_, ?_⟩
                  · simp [is_scalar]; omega
                  · have e1 : ¬ ((b0 - 0xF0) * 0x40000 + (b1 - 0x80) * 0x1000 + (b2 - 0x80) * 0x40
                        + (b3 - 0x80) < 0x80) := by omega
                    have e2 : ¬ ((b0 - 0xF0) * 0x40000 + (b1 - 0x80) * 0x1000 + (b2 - 0x80) * 0x40
                        + (b3 - 0x80) < 0x800) := by omega
                    have e3 : ¬ ((b0 - 0xF0) * 0x40000 + (b1 - 0x80) * 0x1000 + (b2 - 0x80) * 0x40
                        + (b3 - 0x80) < 0x10000) := by omega
                    have e4 : 0xF0 + ((b0 - 0xF0) * 0x40000 + (b1 - 0x80) * 0x1000
                        + (b2 - 0x80) * 0x40 + (b3 - 0x80)) / 0x40000 = b0 := by omega
                    have e5 : 0x80 + ((b0 - 0xF0) * 0x40000 + (b1 - 0x80) * 0x1000
                        + (b2 - 0x80) * 0x40 + (b3 - 0x80)) / 0x1000 % 0x40 = b1 := by omega
                    have e6 : 0x80 + ((b0 - 0xF0) * 0x40000 + (b1 - 0x80) * 0x1000
                        + (b2 - 0x80) * 0x40 + (b3 - 0x80)) / 0x40 % 0x40 = b2 := by omega
                    have e7 : 0x80 + ((b0 - 0xF0) * 0x40000 + (b1 - 0x80) * 0x1000
                        + (b2 - 0x80) * 0x40 + (b3 - 0x80)) % 0x40 = b3 := by omega
                    simp only [encode, e1, e2, e3, e4, e5, e6, e7, if_false, if_true,
                      List.cons_append, List.nil_append]
                · cases h
              · cases h
            · cases h


theorem utf8_read_encode (c : Nat) (hc : is_scalar c = true) (rest : List Nat) :
    utf8_read (encode c ++ rest) = some (c, rest) := by
  simp only [is_scalar, Bool.or_eq_true, Bool.and_eq_true, decide_eq_true_eq] at hc
  by_cases h1 : c < 0x80
  · simp [encode, h1, utf8_read]
  · by_cases h2 : c < 0x800
    · have e : (0xC0 + c / 0x40 - 0xC0) * 0x40 + (0x80 + c % 0x40 - 0x80) = c := by omega
      have a1 : ¬ (0xC0 + c / 0x40 < 0x80) := by omega
      have a2 : ¬ (0xC0 + c / 0x40 < 0xC2) := by omega
      have a3 : 0xC0 + c / 0x40 < 0xE0 := by omega
      have a4 : is_continuation (0x80 + c % 0x40) = true := by
        simp [is_continuation]; omega
      simp only [encode, h1, h2, if_false, if_true, List.cons_append, List.nil_append,
        utf8_read, a1, a2, a3, a4, e]
    · by_cases h3 : c < 0x10000
      · have e : (0xE0 + c / 0x1000 - 0xE0) * 0x1000 + (0x80 + c / 0x40 % 0x40 - 0x80) * 0x40
            + (0x80 + c % 0x40 - 0x80) = c := by omega
        have a1 : ¬ (0xE0 + c / 0x1000 < 0x80) := by omega
        have a2 : ¬ (0xE0 + c / 0x1000 < 0xC2) := by omega
        have a3 : ¬ (0xE0 + c / 0x1000 < 0xE0) := by omega
        have a3' : 0xE0 + c / 0x1000 < 0xF0 := by omega
        have a4 : is_continuation (0x80 + c / 0x40 % 0x40) = true := by
          simp [is_continuation]; omega
        have a5 : is_continuation (0x80 + c % 0x40) = true := by
          simp [is_continuation]; omega
        have a6 : 0x800 ≤ c := by omega
        have a7 : is_scalar c = true := by
          simp only [is_scalar, Bool.or_eq_true, Bool.and_eq_true, decide_eq_true_eq]; exact hc
        simp only [encode, h1, h2, h3, if_false, if_true, List.cons_append, List.nil_append,
          utf8_read, a1, a2, a3, a3', a4, a5, e, a6, a7, Bool.and_self, decide_True]
      · have e : (0xF0 + c / 0x40000 - 0xF0) * 0x40000 + (0x80 + c / 0x1000 % 0x40 - 0x80) * 0x1000
            + (0x80 + c / 0x40 % 0x40 - 0x80) * 0x40 + (0x80 + c % 0x40 - 0x80) = c := by omega
        have a1 : ¬ (0xF0 + c / 0x40000 < 0x80) := by omega
        have a2 : ¬ (0xF0 + c / 0x40000 < 0xC2) := by omega
        have a3 : ¬ (0xF0 + c / 0x40000 < 0xE0) := by omega
        have a3' : ¬ (0xF0 + c / 0x40000 < 0xF0) := by omega
        have a3'' : 0xF0 + c / 0x40000 < 0xF5 := by omega
        have a4 : is_continuation (0x80 + c / 0x1000 % 0x40) = true := by
          simp [is_continuation]; omega
        have a5 : is_continuation (0x80 + c / 0x40 % 0x40) = true := by
          simp [is_continuation]; omega
        have a6 : is_continuation (0x80 + c % 0x40) = true := by
          simp [is_continuation]; omega
        have a7 : 0x10000 ≤ c := by omega
        have a8 : c < 0x110000 := by omega
        simp only [encode, h1, h2, h3, if_false, if_true, List.cons_append, List.nil_append,
          utf8_read, a1, a2, a3, a3', a3'', a4, a5, a6, e, a7, a8, Bool.and_self,
          decide_True]

theorem encode_length_pos (c : Nat) : 0 < (encode c).length := by
  unfold encode
  split
  · simp
  · split
    · simp
    · split <;> simp

/-- Enough fuel: the loop over an encoded text followed by more bytes. -/
theorem utf8_decode_loop_encode (c : Nat) (hc : is_scalar c = true) (rest : List Nat)
    (fuel : Nat) :
    utf8_decode_loop (fuel + 1) (encode c ++ rest)
      = (utf8_decode_loop fuel rest).map (fun tail => c :: tail) := by
  have hne : ∃ b0 tl, encode c ++ rest = b0 :: tl := by
    have := encode_length_pos c
    cases h : encode c with
    | nil => rw [h] at this; simp at this
    | cons b0 tl => exact ⟨b0, tl ++ rest, rfl⟩
  obtain ⟨b0, tl, h⟩ := hne
  have hr := utf8_read_encode c hc rest
  rw [h] at hr ⊢
  simp only [utf8_decode_loop, hr]

theorem utf8_decode_loop_nil (fuel : Nat) : utf8_decode_loop fuel [] = some [] := by
  cases fuel <;> rfl

/-- Any two amounts of fuel that cover the bytes give the same result. -/
theorem utf8_decode_loop_irrel (f1 : Nat) :
    ∀ (f2 : Nat) (bytes : List Nat), bytes.length ≤ f1 → bytes.length ≤ f2 →
      utf8_decode_loop f1 bytes = utf8_decode_loop f2 bytes := by
  induction f1 with
  | zero =>
    intro f2 bytes h1 _
    cases bytes with
    | nil => rw [utf8_decode_loop_nil, utf8_decode_loop_nil]
    | cons b0 rest => simp at h1
  | succ n ih =>
    intro f2 bytes h1 h2
    cases bytes with
    | nil => rw [utf8_decode_loop_nil, utf8_decode_loop_nil]
    | cons b0 rest =>
      cases f2 with
      | zero => simp at h2
      | succ m =>
        simp only [utf8_decode_loop]
        cases hr : utf8_read (b0 :: rest) with
        | none => rfl
        | some p =>
          obtain ⟨c, remaining⟩ := p
          have hspec := (utf8_read_spec _ _ _ hr).2
          have hpos := encode_length_pos c
          have hl : (b0 :: rest).length = (encode c).length + remaining.length := by
            rw [hspec, List.length_append]
          simp only [List.length_cons] at hl h1 h2
          simp only []
          rw [ih m remaining (by omega) (by omega)]

/-- More fuel than bytes changes nothing. -/
theorem utf8_decode_loop_fuel (fuel : Nat) (bytes : List Nat) (h : bytes.length ≤ fuel) :
    utf8_decode_loop fuel bytes = utf8_decode bytes :=
  utf8_decode_loop_irrel fuel bytes.length bytes h (Nat.le_refl _)

theorem utf8_decode_nil : utf8_decode [] = some [] := rfl

theorem utf8_decode_encode (c : Nat) (hc : is_scalar c = true) (rest : List Nat) :
    utf8_decode (encode c ++ rest) = (utf8_decode rest).map (fun tail => c :: tail) := by
  have hpos := encode_length_pos c
  have hlen : (encode c ++ rest).length = ((encode c).length - 1 + rest.length) + 1 := by
    rw [List.length_append]; omega
  unfold utf8_decode
  rw [hlen, utf8_decode_loop_encode c hc, utf8_decode_loop_fuel _ rest (by omega)]
  rfl

/-- Decoding what was encoded gives the code points back. -/
theorem utf8_decode_to_bytes (u : List Nat) :
    ∀ b, utf8_encode u = some b → utf8_decode b = some u := by
  induction u with
  | nil =>
    intro b hb
    simp [utf8_encode] at hb
    subst hb
    rfl
  | cons c rest ih =>
    intro b hb
    unfold utf8_encode at hb
    split at hb
    · next hc =>
      cases hr : utf8_encode rest with
      | none => simp [hr] at hb
      | some tail =>
        simp [hr] at hb
        subst hb
        rw [utf8_decode_encode c hc, ih tail hr]
        rfl
    · cases hb

/-- Encoding what was decoded gives the bytes back. -/
theorem utf8_encode_from_bytes (n : Nat) :
    ∀ (b u : List Nat), b.length ≤ n → utf8_decode b = some u → utf8_encode u = some b := by
  induction n with
  | zero =>
    intro b u hlen h
    cases b with
    | nil =>
      simp [utf8_decode, utf8_decode_loop] at h
      subst h
      rfl
    | cons b0 rest => simp at hlen
  | succ n ih =>
    intro b u hlen h
    cases b with
    | nil =>
      simp [utf8_decode, utf8_decode_loop] at h
      subst h
      rfl
    | cons b0 rest =>
      unfold utf8_decode at h
      simp only [List.length_cons, utf8_decode_loop] at h
      cases hr : utf8_read (b0 :: rest) with
      | none => simp [hr] at h
      | some p =>
        obtain ⟨c, remaining⟩ := p
        obtain ⟨hsc, hspec⟩ := utf8_read_spec _ _ _ hr
        have hpos := encode_length_pos c
        have hl : (b0 :: rest).length = (encode c).length + remaining.length := by
          rw [hspec, List.length_append]
        simp only [List.length_cons] at hl hlen
        simp only [hr] at h
        rw [utf8_decode_loop_fuel _ remaining (by omega)] at h
        cases hrem : utf8_decode remaining with
        | none => simp [hrem] at h
        | some tail =>
          simp [hrem] at h
          subst h
          have := ih remaining tail (by omega) hrem
          rw [hspec]
          simp [utf8_encode, hsc, this]

end UI

namespace UI

theorem utf8_encode_scalar (u : List Nat) :
    ∀ b, utf8_encode u = some b → ∀ c ∈ u, is_scalar c = true := by
  induction u with
  | nil => intro b _ c hc; cases hc
  | cons x rest ih =>
    intro b hb c hc
    unfold utf8_encode at hb
    split at hb
    · next hx =>
      cases hr : utf8_encode rest with
      | none => simp [hr] at hb
      | some tail =>
        rcases List.mem_cons.1 hc with h | h
        · rw [h]; exact hx
        · exact ih tail hr c h
    · cases hb

theorem utf8_encode_of_scalar (u : List Nat) (h : ∀ c ∈ u, is_scalar c = true) :
    ∃ b, utf8_encode u = some b := by
  induction u with
  | nil => exact ⟨[], rfl⟩
  | cons x rest ih =>
    obtain ⟨tail, ht⟩ := ih (fun c hc => h c (List.mem_cons_of_mem _ hc))
    refine ⟨encode x ++ tail, ?_⟩
    simp [utf8_encode, h x (List.mem_cons_self _ _), ht]

/-- The code points of a well-formed string are scalar values and encode to the
bytes they were read from. -/
theorem utf8_decode_sound (b u : List Nat) (h : utf8_decode b = some u) :
    utf8_encode u = some b ∧ ∀ c ∈ u, is_scalar c = true := by
  have hb := utf8_encode_from_bytes b.length b u (Nat.le_refl _) h
  exact ⟨hb, utf8_encode_scalar u b hb⟩

/-- The library reads back what it wrote: an encoded code point up to U+10FFFF,
whatever follows it. -/
theorem read_utf8_encode (c : Nat) (hc : c < 0x110000) (rest : List Nat) :
    read_utf8_code_point (encode c ++ rest) = Read.code_point c rest := by
  by_cases h1 : c < 0x80
  · simp [encode, h1, read_utf8_code_point]
  · by_cases h2 : c < 0x800
    · have e : (0xC0 + c / 0x40) * 0x40 + (0x80 + c % 0x40) - 0x3080 = c := by omega
      have a1 : ¬ (0xC0 + c / 0x40 < 0x80) := by omega
      have a2 : ¬ (0xC0 + c / 0x40 < 0xC2) := by omega
      have a3 : 0xC0 + c / 0x40 < 0xE0 := by omega
      have a4 : is_continuation (0x80 + c % 0x40) = true := by
        simp [is_continuation]; omega
      simp only [encode, h1, h2, if_false, if_true, List.cons_append, List.nil_append,
        read_utf8_code_point, a1, a2, a3, a4, e, Bool.not_true, Bool.false_eq_true]
    · by_cases h3 : c < 0x10000
      · have e : (0xE0 + c / 0x1000) * 0x1000 + (0x80 + c / 0x40 % 0x40) * 0x40
            + (0x80 + c % 0x40) - 0xE2080 = c := by omega
        have a1 : ¬ (0xE0 + c / 0x1000 < 0x80) := by omega
        have a2 : ¬ (0xE0 + c / 0x1000 < 0xC2) := by omega
        have a3 : ¬ (0xE0 + c / 0x1000 < 0xE0) := by omega
        have a3' : 0xE0 + c / 0x1000 < 0xF0 := by omega
        have a4 : is_continuation (0x80 + c / 0x40 % 0x40) = true := by
          simp [is_continuation]; omega
        have a5 : is_continuation (0x80 + c % 0x40) = true := by
          simp [is_continuation]; omega
        have a6 : ((0xE0 + c / 0x1000 == 0xE0) && decide (0x80 + c / 0x40 % 0x40 < 0xA0))
            = false := by
          simp only [Bool.and_eq_false_iff, beq_eq_false_iff_ne, decide_eq_false_iff_not]
          omega
        simp only [encode, h1, h2, h3, if_false, if_true, List.cons_append, List.nil_append,
          read_utf8_code_point, a1, a2, a3, a3', a4, a5, a6, e, Bool.not_true,
          Bool.false_eq_true]
      · have e : (0xF0 + c / 0x40000) * 0x40000 + (0x80 + c / 0x1000 % 0x40) * 0x1000
            + (0x80 + c / 0x40 % 0x40) * 0x40 + (0x80 + c % 0x40) - 0x3C82080 = c := by omega
        have a1 : ¬ (0xF0 + c / 0x40000 < 0x80) := by omega
        have a2 : ¬ (0xF0 + c / 0x40000 < 0xC2) := by omega
        have a3 : ¬ (0xF0 + c / 0x40000 < 0xE0) := by omega
        have a3' : ¬ (0xF0 + c / 0x40000 < 0xF0) := by omega
        have a3'' : 0xF0 + c / 0x40000 < 0xF5 := by omega
        have a4 : is_continuation (0x80 + c / 0x1000 % 0x40) = true := by
          simp [is_continuation]; omega
        have a5 : is_continuation (0x80 + c / 0x40 % 0x40) = true := by
          simp [is_continuation]; omega
        have a6 : is_continuation (0x80 + c % 0x40) = true := by
          simp [is_continuation]; omega
        have a7 : ((0xF0 + c / 0x40000 == 0xF0) && decide (0x80 + c / 0x1000 % 0x40 < 0x90))
            = false := by
          simp only [Bool.and_eq_false_iff, beq_eq_false_iff_ne, decide_eq_false_iff_not]
          omega
        have a8 : ((0xF0 + c / 0x40000 == 0xF4) && decide (0x80 + c / 0x1000 % 0x40 ≥ 0x90))
            = false := by
          simp only [Bool.and_eq_false_iff, beq_eq_false_iff_ne, decide_eq_false_iff_not]
          omega
        simp only [encode, h1, h2, h3, if_false, if_true, List.cons_append, List.nil_append,
          read_utf8_code_point, a1, a2, a3, a3', a3'', a4, a5, a6, a7, a8, e, Bool.not_true,
          Bool.false_eq_true]

/-- Reading a code point consumes at least one byte. -/
theorem read_utf8_length (bytes : List Nat) (c : Nat) (rest : List Nat)
    (h : read_utf8_code_point bytes = Read.code_point c rest) :
    rest.length < bytes.length := by
  unfold read_utf8_code_point at h
  split at h
  · cases h
  · split at h
    · simp only [Read.code_point.injEq] at h
      obtain ⟨_, rfl⟩ := h
      simp
    · split at h
      · cases h
      · split at h
        · split at h
          · split at h
            · cases h
            · simp only [Read.code_point.injEq] at h
              obtain ⟨_, rfl⟩ := h
              simp only [List.length_cons]
              omega
          · cases h
        · split at h
          · split at h
            · split at h
              · cases h
              · split at h
                · cases h
                · split at h
                  · cases h
                  · simp only [Read.code_point.injEq] at h
                    obtain ⟨_, rfl⟩ := h
                    simp only [List.length_cons]
                    omega
            · cases h
          · split at h
            · split at h
              · split at h
                · cases h
                · split at h
                  · cases h
                  · split at h
                    · cases h
                    · split at h
                      · cases h
                      · split at h
                        · cases h
                        · simp only [Read.code_point.injEq] at h
                          obtain ⟨_, rfl⟩ := h
                          simp only [List.length_cons]
                          omega
              · cases h
            · cases h

theorem ucs4_in_nil (fuel : Nat) : ucs4_in fuel [] = some [] := by
  cases fuel <;> rfl

/-- Any two amounts of fuel that cover the bytes give the same result. -/
theorem ucs4_in_irrel (f1 : Nat) :
    ∀ (f2 : Nat) (bytes : List Nat), bytes.length ≤ f1 → bytes.length ≤ f2 →
      ucs4_in f1 bytes = ucs4_in f2 bytes := by
  induction f1 with
  | zero =>
    intro f2 bytes h1 _
    cases bytes with
    | nil => rw [ucs4_in_nil, ucs4_in_nil]
    | cons b0 rest => simp at h1
  | succ n ih =>
    intro f2 bytes h1 h2
    cases bytes with
    | nil => rw [ucs4_in_nil, ucs4_in_nil]
    | cons b0 rest =>
      cases f2 with
      | zero => simp at h2
      | succ m =>
        simp only [ucs4_in]
        cases hr : read_utf8_code_point (b0 :: rest) with
        | incomplete_mb_character => rfl
        | invalid_mb_sequence => rfl
        | code_point c remaining =>
          have hl := read_utf8_length _ _ _ hr
          simp only [List.length_cons] at hl h1 h2
          simp only []
          rw [ih m remaining (by omega) (by omega)]

theorem ucs4_in_fuel (fuel : Nat) (bytes : List Nat) (h : bytes.length ≤ fuel) :
    ucs4_in fuel bytes = from_bytes bytes :=
  ucs4_in_irrel fuel bytes.length bytes h (Nat.le_refl _)

theorem from_bytes_encode (c : Nat) (hc : c < 0x110000) (rest : List Nat) :
    from_bytes (encode c ++ rest) = (from_bytes rest).map (fun tail => c :: tail) := by
  have hpos := encode_length_pos c
  obtain ⟨b0, tl, hcons⟩ : ∃ b0 tl, encode c ++ rest = b0 :: tl := by
    cases h : encode c with
    | nil => rw [h] at hpos; simp at hpos
    | cons b0 tl => exact ⟨b0, tl ++ rest, rfl⟩
  have hr := read_utf8_encode c hc rest
  have hlen : rest.length ≤ tl.length := by
    have : (encode c ++ rest).length = (b0 :: tl).length := by rw [hcons]
    simp only [List.length_append, List.length_cons] at this
    omega
  have hgt : ¬ (c > 0x10FFFF) := by omega
  rw [hcons] at hr ⊢
  unfold from_bytes
  simp only [List.length_cons, ucs4_in, hr, hgt, if_false]
  rw [ucs4_in_fuel _ rest hlen]
  rfl

/-- Decoding what `to_bytes` produced gives the code points back. -/
theorem from_bytes_to_bytes (t : List Nat) :
    ∀ b, to_bytes t = some b → from_bytes b = some t := by
  induction t with
  | nil =>
    intro b hb
    simp [to_bytes] at hb
    subst hb
    rfl
  | cons c rest ih =>
    intro b hb
    unfold to_bytes at hb
    split at hb
    · cases hb
    · next hc =>
      cases hr : to_bytes rest with
      | none => simp [hr] at hb
      | some tail =>
        simp [hr] at hb
        subst hb
        rw [from_bytes_encode c (by omega), ih tail hr]
        rfl

/-- Every code point `from_bytes` returns is at most U+10FFFF. -/
theorem ucs4_in_bound (fuel : Nat) :
    ∀ (bytes u : List Nat), ucs4_in fuel bytes = some u → ∀ c ∈ u, c < 0x110000 := by
  induction fuel with
  | zero =>
    intro bytes u h c hc
    cases bytes with
    | nil =>
      simp [ucs4_in] at h
      subst h
      cases hc
    | cons b0 rest => simp [ucs4_in] at h
  | succ n ih =>
    intro bytes u h c hc
    cases bytes with
    | nil =>
      simp [ucs4_in] at h
      subst h
      cases hc
    | cons b0 rest =>
      simp only [ucs4_in] at h
      cases hr : read_utf8_code_point (b0 :: rest) with
      | incomplete_mb_character =>
        simp [hr] at h
        subst h
        cases hc
      | invalid_mb_sequence => simp [hr] at h
      | code_point x remaining =>
        simp only [hr] at h
        split at h
        · cases h
        · next hx =>
          cases hrem : ucs4_in n remaining with
          | none => simp [hrem] at h
          | some tail =>
            simp [hrem] at h
            subst h
            rcases List.mem_cons.1 hc with e | e
            · rw [e]; omega
            · exact ih remaining tail hrem c e

theorem to_bytes_of_bound (t : List Nat) (h : ∀ c ∈ t, c < 0x110000) :
    ∃ b, to_bytes t = some b := by
  induction t with
  | nil => exact ⟨[], rfl⟩
  | cons x rest ih =>
    obtain ⟨tail, ht⟩ := ih (fun c hc => h c (List.mem_cons_of_mem _ hc))
    have hx : ¬ (x > 0x10FFFF) := by
      have := h x (List.mem_cons_self _ _)
      omega
    refine ⟨encode x ++ tail, ?_⟩
    simp [to_bytes, hx, ht]

theorem to_bytes_bound (t : List Nat) :
    ∀ b, to_bytes t = some b → ∀ c ∈ t, c < 0x110000 := by
  induction t with
  | nil => intro b _ c hc; cases hc
  | cons x rest ih =>
    intro b hb c hc
    unfold to_bytes at hb
    split at hb
    · cases hb
    · next hx =>
      cases hr : to_bytes rest with
      | none => simp [hr] at hb
      | some tail =>
        rcases List.mem_cons.1 hc with e | e
        · rw [e]; omega
        · exact ih tail hr c e

/-- On the encoding of scalar values the library's `to_bytes` is the UTF-8
encoding. -/
theorem to_bytes_of_utf8_encode (t : List Nat) :
    ∀ b, utf8_encode t = some b → to_bytes t = some b := by
  induction t with
  | nil => intro b hb; exact hb
  | cons c rest ih =>
    intro b hb
    unfold utf8_encode at hb
    split at hb
    · next hc =>
      cases hr : utf8_encode rest with
      | none => simp [hr] at hb
      | some tail =>
        simp [hr] at hb
        subst hb
        have hle : ¬ (c > 0x10FFFF) := by
          simp only [is_scalar, Bool.or_eq_true, Bool.and_eq_true, decide_eq_true_eq] at hc
          omega
        simp [to_bytes, hle, ih tail hr]
    · cases hb

/-- On well-formed UTF-8 the library's conversions are the UTF-8 decoding and
encoding. -/
theorem well_formed_agree (b t : List Nat) (h : utf8_decode b = some t) :
    from_bytes b = some t ∧ to_bytes t = some b := by
  have henc := to_bytes_of_utf8_encode t b (utf8_decode_sound b t h).1
  exact ⟨from_bytes_to_bytes t b henc, henc⟩

/-- Storing a text of code points up to U+10FFFF succeeds, and the stored bytes
are the encoding of that text. -/
theorem store_text_bound (w : Input) (t : List Nat) (h : ∀ c ∈ t, c < 0x110000) :
    ∃ b, to_bytes t = some b ∧ from_bytes b = some t
      ∧ w.store_text t =
        { widget := { w with buffer := b,
                             text_calls := w.text_calls ++ [if b.isEmpty then [0x20] else b] }
          thrown := none } := by
  obtain ⟨b, hb⟩ := to_bytes_of_bound t h
  refine ⟨b, hb, from_bytes_to_bytes t b hb, ?_⟩
  simp [Input.store_text, hb, Input.text]

end UI

namespace UI

/-- The update handler does what the handler without any cursor does. -/
theorem on_update_default_eq (w : Input) :
    w.on_update_default = w.on_update_without_cursor := by
  unfold Input.on_update_default Input.on_update_without_cursor
  cases hdec : from_bytes w.buffer with
  | none => rfl
  | some unicode_text =>
    by_cases hcur : w.curpos = unicode_text.length
    · by_cases hzero : (w.timer + 1) % 30 = 0
      · cases hsel : w.is_selected <;> cases hemp : w.buffer.isEmpty <;>
          simp [hcur, hzero, hsel, hemp, Input.text]
      · have hmod : ¬ ((w.timer + 1) % 30 % 30 = 0) := by
          rw [Nat.mod_mod]; exact hzero
        simp [hcur, hzero, hmod]
    · simp [hcur]

/-- What the handler without any cursor leaves behind. -/
theorem on_update_without_cursor_spec (w : Input) :
    (w.on_update_without_cursor.widget.text_calls = w.text_calls
      ∨ (w.on_update_without_cursor.widget.text_calls = w.text_calls ++ [w.buffer]
          ∧ w.on_update_without_cursor.widget.timer = 0))
    ∧ w.on_update_without_cursor.widget.buffer = w.buffer
    ∧ w.on_update_without_cursor.widget.curpos = w.curpos
    ∧ w.on_update_without_cursor.widget.is_selected = w.is_selected
    ∧ (w.on_update_without_cursor.widget.timer = w.timer
      ∨ (w.on_update_without_cursor.widget.timer = (w.timer + 1) % 30
          ∧ w.on_update_without_cursor.widget.timer < 30)) := by
  have hlt : (w.timer + 1) % 30 < 30 := Nat.mod_lt _ (by decide)
  unfold Input.on_update_without_cursor
  cases hdec : from_bytes w.buffer with
  | none => simp
  | some unicode_text =>
    by_cases hcur : w.curpos = unicode_text.length
    · by_cases hzero : (w.timer + 1) % 30 = 0
      · cases hsel : w.is_selected <;> cases hemp : w.buffer.isEmpty <;>
          simp [hcur, hzero, hsel, hemp, Input.text]
      · simp [hcur, hzero, hlt]
    · simp [hcur]

end UI

namespace History

/-- The record after `k` rounds on a fresh pool with one worker. -/
theorem record_rounds_fresh (k : Nat) (hk : k < 2 ^ 64) :
    ∃ sub deq : List Nat,
      (History.new 1 : History Nat).exec (ThreadPool.rounds 0 k)
        = History.mk (ThreadPool.mk true [Worker.waiting] [] k) sub deq
      ∧ deq.length = k := by
  have h := record_rounds (0 : Nat) k 0 [] [] (by decide)
  have harith : (0 + k) % 2 ^ 64 = k := by omega
  rw [harith] at h
  exact ⟨_, _, h, by simp⟩

end History

namespace ThreadPool

/-- The pool after `k` rounds on a fresh pool with one worker. -/
theorem exec_rounds_fresh (k : Nat) (hk : k < 2 ^ 64) :
    (new 1 : ThreadPool Nat).exec (rounds 0 k)
      = ThreadPool.mk true [Worker.waiting] [] k := by
  obtain ⟨sub, deq, h, _⟩ := History.record_rounds_fresh k hk
  have hp := congrArg History.pool h
  rw [History.exec_pool] at hp
  exact hp

/-- The pool after 2^64 - 1 rounds on a fresh pool with one worker: `busy` has
reached `SIZE_MAX`. -/
theorem exec_rounds_max :
    (new 1 : ThreadPool Nat).exec (rounds 0 (2 ^ 64 - 1))
      = ThreadPool.mk true [Worker.waiting] [] (2 ^ 64 - 1) :=
  exec_rounds_fresh (2 ^ 64 - 1) (by decide)

end ThreadPool

/-! ## The claims -/

open ThreadPool

/-- C1, the code at a failing input.  A pool with one worker gets two jobs; the
worker dequeues the first (busy becomes 1), the job returns (busy stays 1: the
return step does not decrement), and the worker dequeues the second: busy is 2
although the pool has a single worker. -/
theorem C1_busy_exceeds_worker_count :
    ((new 1 : ThreadPool Nat).exec
        [Call.add_job 10, Call.add_job 11, Call.thread_loop 0]).busy = 1
    ∧ ((new 1 : ThreadPool Nat).exec
        [Call.add_job 10, Call.add_job 11, Call.thread_loop 0]).threads
        = [Worker.running 10]
    ∧ ((new 1 : ThreadPool Nat).exec
        [Call.add_job 10, Call.add_job 11, Call.thread_loop 0, Call.thread_loop 0]).busy = 1
    ∧ ((new 1 : ThreadPool Nat).exec
        [Call.add_job 10, Call.add_job 11, Call.thread_loop 0, Call.thread_loop 0]).threads
        = [Worker.waiting]
    ∧ ((new 1 : ThreadPool Nat).exec
        [Call.add_job 10, Call.add_job 11, Call.thread_loop 0, Call.thread_loop 0,
         Call.thread_loop 0]).busy = 2
    ∧ ((new 1 : ThreadPool Nat).exec
        [Call.add_job 10, Call.add_job 11, Call.thread_loop 0, Call.thread_loop 0,
         Call.thread_loop 0]).threads.length = 1 := by
  decide

/-- C2, the code at a failing input.  One job is submitted to a pool with one
worker, dequeued, and returns.  The pool is drained (empty queue, the worker back
at its wait) but busy is 1, the condition of wait_finished is false and a caller
of wait_finished stays blocked. -/
theorem C2_drained_pool_not_finished :
    ((new 1 : ThreadPool Nat).exec
        [Call.add_job 10, Call.thread_loop 0, Call.thread_loop 0])
      = { running := true, threads := [Worker.waiting], jobs := [], busy := 1 }
    ∧ ((new 1 : ThreadPool Nat).exec
        [Call.add_job 10, Call.thread_loop 0, Call.thread_loop 0]).finished = false
    ∧ ((new 1 : ThreadPool Nat).exec
        [Call.add_job 10, Call.thread_loop 0, Call.thread_loop 0]).wait_finished = none := by
  decide

/-- C3, the code at a failing input.  On a pool with one worker, 2^64 - 1 jobs are
submitted, dequeued and returned one after the other, which leaves busy at
2^64 - 1.  One more job is submitted and dequeued: busy++ wraps to 0 and the
queue is empty, so the condition of wait_finished holds and a call of
wait_finished returns, while the worker is inside that job. -/
theorem C3_wait_finished_returns_during_job :
    (new 1 : ThreadPool Nat).exec (rounds 0 (2 ^ 64 - 1))
      = ThreadPool.mk true [Worker.waiting] [] (2 ^ 64 - 1)
    ∧ (new 1 : ThreadPool Nat).exec
        (rounds 0 (2 ^ 64 - 1) ++ [Call.add_job 7, Call.thread_loop 0])
      = ThreadPool.mk true [Worker.running 7] [] 0
    ∧ ((new 1 : ThreadPool Nat).exec
        (rounds 0 (2 ^ 64 - 1) ++ [Call.add_job 7, Call.thread_loop 0])).finished = true
    ∧ ((new 1 : ThreadPool Nat).exec
        (rounds 0 (2 ^ 64 - 1) ++ [Call.add_job 7, Call.thread_loop 0])).wait_finished
      = some (ThreadPool.mk true [Worker.running 7] [] 0) := by
  have hstate : (new 1 : ThreadPool Nat).exec
      (rounds 0 (2 ^ 64 - 1) ++ [Call.add_job 7, Call.thread_loop 0])
      = ThreadPool.mk true [Worker.running 7] [] 0 := by
    rw [exec_append, exec_rounds_max]
    decide
  rw [hstate]
  exact ⟨exec_rounds_max, rfl, by decide, by decide⟩

/-- C4.  For every number of workers and every interleaving of calls: the jobs
dequeued so far, in dequeue order, followed by the contents of the queue are the
jobs passed to add_job, in call order.  So the dequeued jobs are an initial
segment of the submitted ones: no job is dequeued twice, lost or reordered. -/
theorem C4_dequeue_order_is_submission_order {Job : Type} (N : Nat)
    (calls : List (Call Job)) :
    ((History.new N).exec calls).pool = (new N).exec calls
    ∧ ((History.new N).exec calls).submitted = History.add_job_args calls
    ∧ ((History.new N).exec calls).dequeued ++ ((new N).exec calls).jobs
        = History.add_job_args calls
    ∧ ((History.new N).exec calls).dequeued
        = (History.add_job_args calls).take ((History.new N).exec calls).dequeued.length := by
  have hpool := History.exec_pool calls (History.new N : History Job)
  have hsub := History.exec_submitted calls (History.new N : History Job)
  have hinv : History.FifoInv ((History.new N : History Job).exec calls) :=
    History.record_preserves History.FifoInv History.fifoInv_step calls _
      (History.fifoInv_new N)
  have hsub2 : ((History.new N : History Job).exec calls).submitted
      = History.add_job_args calls := by
    rw [hsub]; simp [History.new]
  have hpool2 : ((History.new N : History Job).exec calls).pool = (new N).exec calls := by
    rw [hpool]; rfl
  unfold History.FifoInv at hinv
  rw [hpool2, hsub2] at hinv
  refine ⟨hpool2, hsub2, hinv, ?_⟩
  rw [← hinv]
  simp

/-- C5.  From any state in which running is false: (1) whatever calls follow,
running stays false, the record of dequeued jobs does not grow and the jobs that
were queued stay at the front of the queue, so none of them is ever executed;
(2) a step of a worker that is at its wait leaves queue and busy unchanged and
stops that worker; (3) a worker that is inside a job takes, as its next step, the
return of that job and goes back to its wait, with the queue unchanged. -/
theorem C5_no_dequeue_after_teardown {Job : Type} (h : History Job)
    (hr : h.pool.running = false) :
    (∀ calls : List (Call Job),
        (h.exec calls).pool.running = false
        ∧ (h.exec calls).dequeued = h.dequeued
        ∧ h.pool.jobs <+: (h.exec calls).pool.jobs)
    ∧ (∀ i, h.pool.threads[i]? = some Worker.waiting →
        (h.pool.thread_loop i).jobs = h.pool.jobs
        ∧ (h.pool.thread_loop i).busy = h.pool.busy
        ∧ (h.pool.thread_loop i).threads = h.pool.threads.set i Worker.stopped
        ∧ (h.pool.thread_loop i).threads[i]? = some Worker.stopped)
    ∧ (∀ i fn, h.pool.threads[i]? = some (Worker.running fn) →
        (h.pool.thread_loop i).jobs = h.pool.jobs
        ∧ (h.pool.thread_loop i).threads = h.pool.threads.set i Worker.waiting
        ∧ (h.pool.thread_loop i).threads[i]? = some Worker.waiting) := by
  refine ⟨?_, ?_, ?_⟩
  · intro calls
    exact History.record_preserves
      (fun k => k.pool.running = false ∧ k.dequeued = h.dequeued
        ∧ h.pool.jobs <+: k.pool.jobs)
      (History.step_not_running h) calls h ⟨hr, rfl, List.prefix_refl _⟩
  · intro i hw
    have hstep : h.pool.thread_loop i
        = { h.pool with threads := h.pool.threads.set i Worker.stopped } := by
      simp [thread_loop, hw, task_ready, hr]
    rw [hstep]
    exact ⟨rfl, rfl, rfl, getElem?_set_of_some hw⟩
  · intro i fn hw
    have hstep : h.pool.thread_loop i
        = { h.pool with threads := h.pool.threads.set i Worker.waiting } := by
      simp [thread_loop, hw]
    rw [hstep]
    exact ⟨rfl, rfl, getElem?_set_of_some hw⟩

/-- C5 at a concrete state: two workers and three jobs; worker 0 is inside job 1
when the pool is torn down, jobs 2 and 3 are still queued.  Whatever the workers
do afterwards, only job 1 was ever dequeued. -/
theorem C5_no_dequeue_after_teardown_witness :
    ((History.new 2 : History Nat).exec
        [Call.add_job 1, Call.add_job 2, Call.add_job 3, Call.thread_loop 0,
         Call.destroy]).pool
      = { running := false, threads := [Worker.running 1, Worker.waiting],
          jobs := [2, 3], busy := 1 }
    ∧ ((History.new 2 : History Nat).exec
        [Call.add_job 1, Call.add_job 2, Call.add_job 3, Call.thread_loop 0,
         Call.destroy]).dequeued = [1]
    ∧ (((History.new 2 : History Nat).exec
          [Call.add_job 1, Call.add_job 2, Call.add_job 3, Call.thread_loop 0,
           Call.destroy]).exec
          [Call.thread_loop 1, Call.thread_loop 0, Call.add_job 4, Call.thread_loop 0,
           Call.thread_loop 1]).dequeued
        = ((History.new 2 : History Nat).exec
          [Call.add_job 1, Call.add_job 2, Call.add_job 3, Call.thread_loop 0,
           Call.destroy]).dequeued :=
  ⟨by decide, by decide,
    ((C5_no_dequeue_after_teardown ((History.new 2 : History Nat).exec
        [Call.add_job 1, Call.add_job 2, Call.add_job 3, Call.thread_loop 0,
         Call.destroy]) (by decide)).1
      [Call.thread_loop 1, Call.thread_loop 0, Call.add_job 4, Call.thread_loop 0,
       Call.thread_loop 1]).2.1⟩

/-- C6, as stated, fails: when the hardware concurrency is reported as 0 the
constructor spawns no worker at all, not one. -/
theorem C6_undetectable_concurrency_spawns_no_worker :
    (new 0 : ThreadPool Nat).threads = []
    ∧ (new 0 : ThreadPool Nat).threads.length ≠ 1 := by
  decide

/-- C6, amended.  The constructor spawns exactly as many workers as the reported
hardware concurrency, whatever that value is, each one at its wait, with running
set, an empty queue and busy 0; the pool has at least one worker exactly when the
reported value is at least 1. -/
theorem C6_constructor_spawns_hardware_concurrency_workers {Job : Type}
    (hardware_concurrency : Nat) :
    (new hardware_concurrency : ThreadPool Job).threads.length = hardware_concurrency
    ∧ (∀ w ∈ (new hardware_concurrency : ThreadPool Job).threads, w = Worker.waiting)
    ∧ (new hardware_concurrency : ThreadPool Job).running = true
    ∧ (new hardware_concurrency : ThreadPool Job).jobs = []
    ∧ (new hardware_concurrency : ThreadPool Job).busy = 0
    ∧ (1 ≤ (new hardware_concurrency : ThreadPool Job).threads.length
        ↔ 1 ≤ hardware_concurrency) := by
  have hlen : (new hardware_concurrency : ThreadPool Job).threads.length
      = hardware_concurrency := by
    simp [new]
  refine ⟨hlen, ?_, rfl, rfl, rfl, by rw [hlen]⟩
  intro w hw
  exact List.eq_of_mem_replicate hw

/-- C7.  When the reported hardware concurrency is at least 1, for_each returns
and has applied func to the elements of the range one after the other, first to
last: for any func the final state is the left-to-right fold of func over the
range, and a func that records its argument ends with exactly the list of the
range elements (nothing for an empty range). -/
theorem C7_for_each_visits_range_in_order {α : Type} (hardware_concurrency : Nat)
    (hhc : 1 ≤ hardware_concurrency) (range : List α) :
    (∀ (σ : Type) (func : α → σ → σ) (st : σ),
        for_each hardware_concurrency range func st
          = Except.ok (range.foldl (fun acc x => func x acc) st))
    ∧ for_each hardware_concurrency range (fun x visited => visited ++ [x]) []
        = Except.ok range
    ∧ (range = [] → ∀ (σ : Type) (func : α → σ → σ) (st : σ),
        for_each hardware_concurrency range func st = Except.ok st) := by
  have hne : hardware_concurrency ≠ 0 := by omega
  have gen : ∀ (σ : Type) (func : α → σ → σ) (st : σ),
      for_each hardware_concurrency range func st
        = Except.ok (range.foldl (fun acc x => func x acc) st) := by
    intro σ func st
    cases range with
    | nil => rfl
    | cons x rest =>
      simp only [for_each, List.length_cons, Nat.add_one_ne_zero, if_false, hne]
      rw [for_each_loop_eq_foldl]
  refine ⟨gen, ?_, ?_⟩
  · cases range with
    | nil => rfl
    | cons x rest =>
      simp only [for_each, List.length_cons, Nat.add_one_ne_zero, if_false, hne]
      rw [for_each_loop_record]
      rfl
  · intro hnil σ func st
    rw [gen, hnil]
    rfl

/-- C7 on the range 0..99 with four hardware threads: the recorded visits are
0, 1, ..., 99. -/
theorem C7_for_each_visits_range_in_order_witness :
    1 ≤ 4
    ∧ for_each 4 (List.range 100) (fun x visited => visited ++ [x]) []
        = Except.ok (List.range 100) :=
  ⟨by decide, (C7_for_each_visits_range_in_order 4 (by decide) (List.range 100)).2.1⟩

/-- C8.  For every pool state and every job, add_job returns a state whose queue
is the old queue with the job appended: one entry longer, the old entries at
their old positions, the new job last.  busy, running and the workers are
unchanged.  add_job is defined on every state (there is no bound on the length
of the queue). -/
theorem C8_add_job_appends_at_tail {Job : Type} (s : ThreadPool Job) (job : Job) :
    (s.add_job job).jobs = s.jobs ++ [job]
    ∧ (s.add_job job).jobs.length = s.jobs.length + 1
    ∧ (∀ k, k < s.jobs.length → (s.add_job job).jobs[k]? = s.jobs[k]?)
    ∧ (s.add_job job).jobs[s.jobs.length]? = some job
    ∧ (s.add_job job).busy = s.busy
    ∧ (s.add_job job).running = s.running
    ∧ (s.add_job job).threads = s.threads := by
  refine ⟨rfl, ?_, ?_, ?_, rfl, rfl, rfl⟩
  · simp [add_job]
  · intro k hk
    simp only [add_job]
    exact List.getElem?_append_left hk
  · simp [add_job]

/-- C10, as stated, fails: after one job was submitted to a pool with one worker
and the pool was torn down, running is false and the queue is not empty; the
waiting worker wakes, stops, and leaves the job in the queue. -/
theorem C10_worker_stops_with_job_queued :
    ((new 1 : ThreadPool Nat).exec [Call.add_job 7, Call.destroy])
      = { running := false, threads := [Worker.waiting], jobs := [7], busy := 0 }
    ∧ ((new 1 : ThreadPool Nat).exec [Call.add_job 7, Call.destroy]).task_ready = true
    ∧ (((new 1 : ThreadPool Nat).exec [Call.add_job 7, Call.destroy]).thread_loop 0)
      = { running := false, threads := [Worker.stopped], jobs := [7], busy := 0 }
    ∧ ¬ ((((new 1 : ThreadPool Nat).exec
            [Call.add_job 7, Call.destroy]).thread_loop 0).threads[0]?
          = some Worker.stopped
        ↔ (((new 1 : ThreadPool Nat).exec [Call.add_job 7, Call.destroy]).running = false
          ∧ ((new 1 : ThreadPool Nat).exec [Call.add_job 7, Call.destroy]).jobs = [])) := by
  decide

/-- C10, amended.  In every pool state in which a waiting worker wakes (queue
not empty or running false): the worker stops if and only if running is false,
whether or not the queue is empty, and then queue and busy are unchanged; in the
remaining case (running true, hence a non-empty queue) it removes the head job
from the queue, increments busy by one (busy++, which is modulo 2^64) and runs
that job. -/
theorem C10_wake_stops_iff_not_running {Job : Type} (s : ThreadPool Job) (i : Nat)
    (hw : s.threads[i]? = some Worker.waiting) (hready : s.task_ready = true) :
    ((s.thread_loop i).threads[i]? = some Worker.stopped ↔ s.running = false)
    ∧ (s.running = false →
        s.thread_loop i = { s with threads := s.threads.set i Worker.stopped })
    ∧ (s.running = true → ∃ fn rest, s.jobs = fn :: rest
        ∧ (s.thread_loop i).threads[i]? = some (Worker.running fn)
        ∧ s.thread_loop i =
          { s with jobs := rest, busy := (s.busy + 1) % 2 ^ 64,
                   threads := s.threads.set i (Worker.running fn) }) := by
  have hcases : s.running = false ∨ s.running = true := by
    cases s.running <;> simp
  rcases hcases with hr | hr
  · have hstep : s.thread_loop i = { s with threads := s.threads.set i Worker.stopped } := by
      simp [thread_loop, hw, task_ready, hr]
    refine ⟨?_, fun _ => hstep, ?_⟩
    · rw [hstep]
      simp [getElem?_set_of_some hw, hr]
    · intro h
      rw [hr] at h
      cases h
  · have hjobs : s.jobs = [] ∨ ∃ fn rest, s.jobs = fn :: rest := by
      cases s.jobs <;> simp
    rcases hjobs with hj | ⟨fn, rest, hj⟩
    · simp [task_ready, hr, hj] at hready
    · have hstep : s.thread_loop i =
          { s with jobs := rest, busy := (s.busy + 1) % 2 ^ 64,
                   threads := s.threads.set i (Worker.running fn) } := by
        simp [thread_loop, hw, task_ready, hr, hj]
      refine ⟨?_, ?_, fun _ => ⟨fn, rest, hj, ?_, hstep⟩⟩
      · rw [hstep]
        simp [getElem?_set_of_some hw, hr]
      · intro h
        rw [hr] at h
        cases h
      · rw [hstep]
        exact getElem?_set_of_some hw

/-- C10, amended, at two concrete states of a pool with one worker: with job 7
queued and running set, the worker takes job 7; after teardown with job 7 still
queued, the worker stops. -/
theorem C10_wake_stops_iff_not_running_witness :
    (((new 1 : ThreadPool Nat).exec [Call.add_job 7]).threads[0]? = some Worker.waiting
      ∧ ((new 1 : ThreadPool Nat).exec [Call.add_job 7]).task_ready = true)
    ∧ ((((new 1 : ThreadPool Nat).exec [Call.add_job 7]).thread_loop 0).threads[0]?
          = some Worker.stopped
        ↔ ((new 1 : ThreadPool Nat).exec [Call.add_job 7]).running = false)
    ∧ ((((new 1 : ThreadPool Nat).exec [Call.add_job 7, Call.destroy]).thread_loop 0).threads[0]?
          = some Worker.stopped
        ↔ ((new 1 : ThreadPool Nat).exec [Call.add_job 7, Call.destroy]).running = false) :=
  ⟨⟨by decide, by decide⟩,
    (C10_wake_stops_iff_not_running ((new 1 : ThreadPool Nat).exec [Call.add_job 7]) 0
      (by decide) (by decide)).1,
    (C10_wake_stops_iff_not_running
      ((new 1 : ThreadPool Nat).exec [Call.add_job 7, Call.destroy]) 0
      (by decide) (by decide)).1⟩

/-- C11.  A pool constructed with no worker is a well-defined state without any
thread.  After any interleaving of calls nothing has been dequeued, no worker
exists that could run a job, busy is 0 and the queue holds exactly the submitted
jobs in submission order.  Once a job has been submitted, whatever calls came
before and whatever calls follow, the condition of wait_finished is false and a
caller of wait_finished stays blocked. -/
theorem C11_no_worker_no_progress {Job : Type} (calls : List (Call Job)) :
    (new 0 : ThreadPool Job) = { running := true, threads := [], jobs := [], busy := 0 }
    ∧ ((History.new 0).exec calls).pool = (new 0).exec calls
    ∧ ((History.new 0).exec calls).dequeued = []
    ∧ ((new 0).exec calls).threads = []
    ∧ ((new 0).exec calls).busy = 0
    ∧ ((new 0).exec calls).jobs = History.add_job_args calls
    ∧ (∀ (job : Job) (later : List (Call Job)),
        ((new 0).exec (calls ++ Call.add_job job :: later)).finished = false
        ∧ ((new 0).exec (calls ++ Call.add_job job :: later)).wait_finished = none) := by
  have hpool : ∀ cs : List (Call Job),
      ((History.new 0 : History Job).exec cs).pool = (new 0).exec cs := by
    intro cs
    rw [History.exec_pool]; rfl
  have hinv : ∀ cs : List (Call Job),
      ((History.new 0 : History Job).exec cs).pool.threads = []
      ∧ ((History.new 0 : History Job).exec cs).dequeued = []
      ∧ ((History.new 0 : History Job).exec cs).pool.busy = 0 := by
    intro cs
    exact History.record_preserves
      (fun k => k.pool.threads = [] ∧ k.dequeued = [] ∧ k.pool.busy = 0)
      History.no_worker_step cs _ ⟨rfl, rfl, rfl⟩
  have hjobs : ∀ cs : List (Call Job),
      ((new 0 : ThreadPool Job).exec cs).jobs = History.add_job_args cs := by
    intro cs
    have hfifo : History.FifoInv ((History.new 0 : History Job).exec cs) :=
      History.record_preserves History.FifoInv History.fifoInv_step cs _
        (History.fifoInv_new 0)
    have hsub := History.exec_submitted cs (History.new 0 : History Job)
    unfold History.FifoInv at hfifo
    rw [(hinv cs).2.1, hsub, hpool cs] at hfifo
    simpa [History.new] using hfifo
  have h1 := hinv calls
  rw [hpool calls] at h1
  refine ⟨rfl, hpool calls, (hinv calls).2.1, h1.1, h1.2.2, hjobs calls, ?_⟩
  intro job later
  have hne : ((new 0 : ThreadPool Job).exec (calls ++ Call.add_job job :: later)).finished
      = false := by
    simp [finished, hjobs, History.add_job_args_append, History.add_job_args]
  refine ⟨hne, ?_⟩
  simp [wait_finished, hne]

/-- C12, the code at its failing inputs.  When the hardware concurrency is
reported as 0 and the range is not empty, for_each passes the emptiness test and
reaches the chunk-size division with divisor 0, before func is applied to any
element. -/
theorem C12_for_each_divides_by_zero {α σ : Type} (x : α) (rest : List α)
    (func : α → σ → σ) (st : σ) :
    for_each 0 (x :: rest) func st = Except.error Fault.division_by_zero := by
  simp [for_each]

/-- C13, as stated, fails: on a pool with one worker that has run 2^64 - 1 jobs,
busy is 2^64 - 1; a further job is submitted and the step in which the worker
dequeues it takes busy down to 0, while 2^64 jobs have been dequeued since
construction. -/
theorem C13_busy_wraps_to_zero :
    ((new 1 : ThreadPool Nat).exec (rounds 0 (2 ^ 64 - 1) ++ [Call.add_job 7])).busy
      = 2 ^ 64 - 1
    ∧ (((new 1 : ThreadPool Nat).exec (rounds 0 (2 ^ 64 - 1) ++ [Call.add_job 7])).step
        (Call.thread_loop 0)).busy = 0
    ∧ ((History.new 1 : History Nat).exec
        (rounds 0 (2 ^ 64 - 1) ++ [Call.add_job 7, Call.thread_loop 0])).dequeued.length
      = 2 ^ 64
    ∧ ((History.new 1 : History Nat).exec
        (rounds 0 (2 ^ 64 - 1) ++ [Call.add_job 7, Call.thread_loop 0])).pool.busy = 0 := by
  have hpool : (new 1 : ThreadPool Nat).exec (rounds 0 (2 ^ 64 - 1) ++ [Call.add_job 7])
      = ThreadPool.mk true [Worker.waiting] [7] (2 ^ 64 - 1) := by
    rw [exec_append, exec_rounds_max]
    decide
  obtain ⟨sub, deq, hrounds, hlen⟩ := History.record_rounds_fresh (2 ^ 64 - 1) (by decide)
  have hrec : (History.new 1 : History Nat).exec
      (rounds 0 (2 ^ 64 - 1) ++ [Call.add_job 7, Call.thread_loop 0])
      = History.mk (ThreadPool.mk true [Worker.running 7] [] 0)
          (sub ++ [7]) (deq ++ [7]) := by
    rw [History.record_append, hrounds]
    simp [History.exec, History.step, ThreadPool.step, ThreadPool.add_job,
      ThreadPool.thread_loop, ThreadPool.task_ready, ThreadPool.taken]
  rw [hpool, hrec]
  refine ⟨rfl, by decide, ?_, rfl⟩
  show (deq ++ [7]).length = 2 ^ 64
  rw [List.length_append, hlen]
  decide

/-- C13, amended.  After any interleaving of calls on a pool with any number of
workers, busy is the number of jobs dequeued since construction modulo 2^64, and
is that number itself while fewer than 2^64 jobs have been dequeued.  From any
state, no call decrements busy: a call leaves busy as it is or does busy++,
which wraps from 2^64 - 1 to 0; so a call made while busy is below 2^64 - 1 does
not lower busy. -/
theorem C13_busy_counts_dequeues_mod_size {Job : Type} (N : Nat)
    (calls : List (Call Job)) :
    ((new N).exec calls).busy = ((History.new N).exec calls).dequeued.length % 2 ^ 64
    ∧ (((History.new N).exec calls).dequeued.length < 2 ^ 64 →
        ((new N).exec calls).busy = ((History.new N).exec calls).dequeued.length)
    ∧ (∀ (s : ThreadPool Job) (c : Call Job),
        (s.step c).busy = s.busy ∨ (s.step c).busy = (s.busy + 1) % 2 ^ 64)
    ∧ (∀ (s : ThreadPool Job) (c : Call Job),
        s.busy + 1 < 2 ^ 64 → s.busy ≤ (s.step c).busy) := by
  have hpool : ((History.new N : History Job).exec calls).pool = (new N).exec calls := by
    rw [History.exec_pool]; rfl
  have hinv : ((History.new N : History Job).exec calls).pool.busy
      = ((History.new N : History Job).exec calls).dequeued.length % 2 ^ 64 :=
    History.record_preserves (fun k => k.pool.busy = k.dequeued.length % 2 ^ 64)
      History.busy_step calls _ rfl
  rw [hpool] at hinv
  refine ⟨hinv, ?_, busy_step_cases, ?_⟩
  · intro hlt
    rw [hinv]
    exact Nat.mod_eq_of_lt hlt
  · intro s c hlt
    rcases busy_step_cases s c with h | h
    · rw [h]
    · rw [h, Nat.mod_eq_of_lt hlt]
      exact Nat.le_succ _

/-- C14.  Let the buffer of a UI::Input be the UTF-8 encoding of the code points
u, as every well-formed UTF-8 string is of its code points (g), and let curpos
be at most the number of those code points.  Then
(a) set_buffer with these bytes, on any widget, returns with the bytes as buffer
and curpos equal to the number of code points;
(b) when the conversion of the typed string s succeeds with code points us (for
a well-formed s these are its code points), the text-input handler returns, the
new buffer is the encoding of u with us inserted at index curpos, and curpos has
advanced by the number of code points in us;
(c) when the conversion of s fails, the handler throws range_error and leaves
every member as it was;
(d) a backspace with curpos > 0 returns, the new buffer is the encoding of u
without the code point at index curpos - 1, and curpos is one less;
(e) a backspace with curpos = 0 returns with buffer and curpos unchanged;
(f) for every input, the buffer is again the encoding of its code points, curpos
is within them, and no out_of_range is thrown by insert or erase. -/
theorem C14_curpos_stays_in_bounds (w : UI.Input) (u : List Nat)
    (hbuf : UI.to_bytes u = some w.buffer) (hinv : w.curpos ≤ u.length) :
    (∀ v : UI.Input,
        (v.set_buffer w.buffer).thrown = none
        ∧ (v.set_buffer w.buffer).widget.buffer = w.buffer
        ∧ (v.set_buffer w.buffer).widget.curpos = u.length
        ∧ (v.set_buffer w.buffer).widget.curpos_in_bounds)
    ∧ (∀ s us : List Nat, UI.from_bytes s = some us →
        (w.on_textinput (some s)).thrown = none
        ∧ UI.to_bytes (u.take w.curpos ++ us ++ u.drop w.curpos)
            = some (w.on_textinput (some s)).widget.buffer
        ∧ UI.from_bytes (w.on_textinput (some s)).widget.buffer
            = some (u.take w.curpos ++ us ++ u.drop w.curpos)
        ∧ (w.on_textinput (some s)).widget.curpos = w.curpos + us.length)
    ∧ (∀ s : List Nat, UI.from_bytes s = none →
        w.on_textinput (some s) = { widget := w, thrown := some UI.Exception.range_error })
    ∧ (0 < w.curpos →
        (w.on_textinput none).thrown = none
        ∧ UI.to_bytes (u.take (w.curpos - 1) ++ u.drop w.curpos)
            = some (w.on_textinput none).widget.buffer
        ∧ UI.from_bytes (w.on_textinput none).widget.buffer
            = some (u.take (w.curpos - 1) ++ u.drop w.curpos)
        ∧ (w.on_textinput none).widget.curpos = w.curpos - 1)
    ∧ (w.curpos = 0 →
        (w.on_textinput none).thrown = none
        ∧ (w.on_textinput none).widget.buffer = w.buffer
        ∧ (w.on_textinput none).widget.curpos = 0)
    ∧ (∀ input : Option (List Nat),
        (∃ t, UI.to_bytes t = some (w.on_textinput input).widget.buffer
            ∧ (w.on_textinput input).widget.curpos ≤ t.length)
        ∧ (w.on_textinput input).widget.curpos_in_bounds
        ∧ (w.on_textinput input).thrown ≠ some UI.Exception.out_of_range)
    ∧ (∀ b t : List Nat, UI.utf8_decode b = some t →
        UI.from_bytes b = some t ∧ UI.to_bytes t = some b) := by
  have hdec : UI.from_bytes w.buffer = some u := UI.from_bytes_to_bytes u w.buffer hbuf
  have hsc : ∀ c ∈ u, c < 0x110000 := UI.to_bytes_bound u w.buffer hbuf
  -- (a)
  have ha : ∀ v : UI.Input,
      (v.set_buffer w.buffer).thrown = none
      ∧ (v.set_buffer w.buffer).widget.buffer = w.buffer
      ∧ (v.set_buffer w.buffer).widget.curpos = u.length
      ∧ (v.set_buffer w.buffer).widget.curpos_in_bounds := by
    intro v
    have hset : v.set_buffer w.buffer =
        { widget := { v with buffer := w.buffer, text_calls := v.text_calls ++ [w.buffer],
                             curpos := u.length }
          thrown := none } := by
      simp [UI.Input.set_buffer, UI.Input.text, hdec]
    rw [hset]
    exact ⟨rfl, rfl, rfl, u, hdec, Nat.le_refl _⟩
  -- (b)
  have hb : ∀ s us : List Nat, UI.from_bytes s = some us →
      (w.on_textinput (some s)).thrown = none
      ∧ UI.to_bytes (u.take w.curpos ++ us ++ u.drop w.curpos)
          = some (w.on_textinput (some s)).widget.buffer
      ∧ UI.from_bytes (w.on_textinput (some s)).widget.buffer
          = some (u.take w.curpos ++ us ++ u.drop w.curpos)
      ∧ (w.on_textinput (some s)).widget.curpos = w.curpos + us.length := by
    intro s us hs
    have hus : ∀ c ∈ us, c < 0x110000 := UI.ucs4_in_bound s.length s us hs
    have hall : ∀ c ∈ u.take w.curpos ++ us ++ u.drop w.curpos, c < 0x110000 := by
      intro c hc
      rcases List.mem_append.1 hc with h | h
      · rcases List.mem_append.1 h with h | h
        · exact hsc c (List.mem_of_mem_take h)
        · exact hus c h
      · exact hsc c (List.mem_of_mem_drop h)
    obtain ⟨b, henc, hdec2, hst⟩ :=
      UI.store_text_bound { w with curpos := w.curpos + us.length } _ hall
    have hrun : w.on_textinput (some s)
        = UI.Input.store_text { w with curpos := w.curpos + us.length }
            (u.take w.curpos ++ us ++ u.drop w.curpos) := by
      simp [UI.Input.on_textinput, hdec, hs, UI.u32_insert, hinv]
    rw [hrun, hst]
    exact ⟨rfl, henc, hdec2, rfl⟩
  -- (c)
  have hc : ∀ s : List Nat, UI.from_bytes s = none →
      w.on_textinput (some s) = { widget := w, thrown := some UI.Exception.range_error } := by
    intro s hs
    simp [UI.Input.on_textinput, hdec, hs]
  -- (d)
  have hd : 0 < w.curpos →
      (w.on_textinput none).thrown = none
      ∧ UI.to_bytes (u.take (w.curpos - 1) ++ u.drop w.curpos)
          = some (w.on_textinput none).widget.buffer
      ∧ UI.from_bytes (w.on_textinput none).widget.buffer
          = some (u.take (w.curpos - 1) ++ u.drop w.curpos)
      ∧ (w.on_textinput none).widget.curpos = w.curpos - 1 := by
    intro hpos
    have hne : u ≠ [] := by
      intro h
      rw [h] at hinv
      simp at hinv
      omega
    have hall : ∀ c ∈ u.take (w.curpos - 1) ++ u.drop w.curpos, c < 0x110000 := by
      intro c hc
      rcases List.mem_append.1 hc with h | h
      · exact hsc c (List.mem_of_mem_take h)
      · exact hsc c (List.mem_of_mem_drop h)
    obtain ⟨b, henc, hdec2, hst⟩ :=
      UI.store_text_bound { w with curpos := w.curpos - 1 } _ hall
    have hidx : w.curpos - 1 + 1 = w.curpos := by omega
    have hle : w.curpos - 1 ≤ u.length := by omega
    have hcur : w.curpos ≠ 0 := by omega
    have hrun : w.on_textinput none
        = UI.Input.store_text { w with curpos := w.curpos - 1 }
            (u.take (w.curpos - 1) ++ u.drop w.curpos) := by
      simp [UI.Input.on_textinput, hdec, UI.u32_erase, hle, hidx, hne, hcur]
    rw [hrun, hst]
    exact ⟨rfl, henc, hdec2, rfl⟩
  -- (e)
  have he : w.curpos = 0 →
      (w.on_textinput none).thrown = none
      ∧ (w.on_textinput none).widget.buffer = w.buffer
      ∧ (w.on_textinput none).widget.curpos = 0 := by
    intro hzero
    have hrun : w.on_textinput none = UI.Input.store_text w u := by
      simp [UI.Input.on_textinput, hdec, hzero]
    rw [hrun]
    simp [UI.Input.store_text, hbuf, UI.Input.text, hzero]
  refine ⟨ha, hb, hc, hd, he, ?_, UI.well_formed_agree⟩
  intro input
  cases input with
  | some s =>
    cases hs : UI.from_bytes s with
    | none =>
      rw [hc s hs]
      exact ⟨⟨u, hbuf, hinv⟩, ⟨u, hdec, hinv⟩, by simp⟩
    | some us =>
      obtain ⟨h1, h2, h3, h4⟩ := hb s us hs
      have hlen : (w.on_textinput (some s)).widget.curpos
          ≤ (u.take w.curpos ++ us ++ u.drop w.curpos).length := by
        rw [h4]
        simp only [List.length_append, List.length_take, List.length_drop]
        omega
      exact ⟨⟨_, h2, hlen⟩, ⟨_, h3, hlen⟩, by rw [h1]; simp⟩
  | none =>
    rcases Nat.eq_zero_or_pos w.curpos with hz | hp
    · obtain ⟨h1, h2, h3⟩ := he hz
      refine ⟨⟨u, by rw [h2]; exact hbuf, by rw [h3]; exact Nat.zero_le _⟩,
        ⟨u, by rw [h2]; exact hdec, by rw [h3]; exact Nat.zero_le _⟩, by rw [h1]; simp⟩
    · obtain ⟨h1, h2, h3, h4⟩ := hd hp
      have hlen : (w.on_textinput none).widget.curpos
          ≤ (u.take (w.curpos - 1) ++ u.drop w.curpos).length := by
        rw [h4]
        simp only [List.length_append, List.length_take, List.length_drop]
        omega
      exact ⟨⟨_, h2, hlen⟩, ⟨_, h3, hlen⟩, by rw [h1]; simp⟩

/-- C14 at two concrete inputs.  The buffer holds the code points U+0061 U+00E9
(three bytes) and curpos is 1.  Typing the euro sign (three bytes, one code
point) gives a buffer that decodes to U+0061 U+20AC U+00E9, with curpos 2.
Typing the bytes 78 E2 82, an x followed by a sequence that is cut off, inserts
the x alone, with curpos 2. -/
theorem C14_curpos_stays_in_bounds_witness :
    UI.to_bytes [0x61, 0xE9] = some [0x61, 0xC3, 0xA9]
    ∧ 1 ≤ [0x61, 0xE9].length
    ∧ ((UI.Input.on_textinput
          { buffer := [0x61, 0xC3, 0xA9], curpos := 1, timer := 0, is_selected := true,
            text_calls := [[0x61, 0xC3, 0xA9]] }
          (some [0xE2, 0x82, 0xAC])).thrown = none
      ∧ UI.to_bytes ([0x61, 0xE9].take 1 ++ [0x20AC] ++ [0x61, 0xE9].drop 1)
        = some (UI.Input.on_textinput
          { buffer := [0x61, 0xC3, 0xA9], curpos := 1, timer := 0, is_selected := true,
            text_calls := [[0x61, 0xC3, 0xA9]] }
          (some [0xE2, 0x82, 0xAC])).widget.buffer
      ∧ UI.from_bytes (UI.Input.on_textinput
          { buffer := [0x61, 0xC3, 0xA9], curpos := 1, timer := 0, is_selected := true,
            text_calls := [[0x61, 0xC3, 0xA9]] }
          (some [0xE2, 0x82, 0xAC])).widget.buffer
        = some ([0x61, 0xE9].take 1 ++ [0x20AC] ++ [0x61, 0xE9].drop 1)
      ∧ (UI.Input.on_textinput
          { buffer := [0x61, 0xC3, 0xA9], curpos := 1, timer := 0, is_selected := true,
            text_calls := [[0x61, 0xC3, 0xA9]] }
          (some [0xE2, 0x82, 0xAC])).widget.curpos = 1 + [0x20AC].length)
    ∧ ((UI.Input.on_textinput
          { buffer := [0x61, 0xC3, 0xA9], curpos := 1, timer := 0, is_selected := true,
            text_calls := [[0x61, 0xC3, 0xA9]] }
          (some [0x78, 0xE2, 0x82])).thrown = none
      ∧ UI.to_bytes ([0x61, 0xE9].take 1 ++ [0x78] ++ [0x61, 0xE9].drop 1)
        = some (UI.Input.on_textinput
          { buffer := [0x61, 0xC3, 0xA9], curpos := 1, timer := 0, is_selected := true,
            text_calls := [[0x61, 0xC3, 0xA9]] }
          (some [0x78, 0xE2, 0x82])).widget.buffer
      ∧ UI.from_bytes (UI.Input.on_textinput
          { buffer := [0x61, 0xC3, 0xA9], curpos := 1, timer := 0, is_selected := true,
            text_calls := [[0x61, 0xC3, 0xA9]] }
          (some [0x78, 0xE2, 0x82])).widget.buffer
        = some ([0x61, 0xE9].take 1 ++ [0x78] ++ [0x61, 0xE9].drop 1)
      ∧ (UI.Input.on_textinput
          { buffer := [0x61, 0xC3, 0xA9], curpos := 1, timer := 0, is_selected := true,
            text_calls := [[0x61, 0xC3, 0xA9]] }
          (some [0x78, 0xE2, 0x82])).widget.curpos = 1 + [0x78].length) :=
  ⟨by decide, by decide,
    (C14_curpos_stays_in_bounds
      { buffer := [0x61, 0xC3, 0xA9], curpos := 1, timer := 0, is_selected := true,
        text_calls := [[0x61, 0xC3, 0xA9]] }
      [0x61, 0xE9] (by decide) (by decide)).2.1 [0xE2, 0x82, 0xAC] [0x20AC] (by decide),
    (C14_curpos_stays_in_bounds
      { buffer := [0x61, 0xC3, 0xA9], curpos := 1, timer := 0, is_selected := true,
        text_calls := [[0x61, 0xC3, 0xA9]] }
      [0x61, 0xE9] (by decide) (by decide)).2.1 [0x78, 0xE2, 0x82] [0x78] (by decide)⟩

/-- C15.  For every UI::Input state the update handler behaves like a handler
that has no cursor at all.  It calls Widget::text at most once, and then with
exactly the buffer as argument and with the new timer value 0; buffer,
curpos and the selection flag are untouched; the timer is either untouched or
advanced to (timer + 1) mod 30, which is below 30. -/
theorem C15_update_never_shows_cursor (w : UI.Input) :
    w.on_update_default = w.on_update_without_cursor
    ∧ (w.on_update_default.widget.text_calls = w.text_calls
      ∨ (w.on_update_default.widget.text_calls = w.text_calls ++ [w.buffer]
          ∧ w.on_update_default.widget.timer = 0))
    ∧ w.on_update_default.widget.buffer = w.buffer
    ∧ w.on_update_default.widget.curpos = w.curpos
    ∧ w.on_update_default.widget.is_selected = w.is_selected
    ∧ (w.on_update_default.widget.timer = w.timer
      ∨ (w.on_update_default.widget.timer = (w.timer + 1) % 30
          ∧ w.on_update_default.widget.timer < 30)) := by
  rw [UI.on_update_default_eq]
  exact ⟨rfl, UI.on_update_without_cursor_spec w⟩

end Eng3D
